import Mathlib

/-!
Verification development for the KnowYourCustomer extraction engine
(`extraction_engine.py`).  The core pipeline `extract_attributes_from_java`
is shallowly embedded below: file contents are modelled as lists of lines
(the original text is their newline join), an unreadable file is a `JFile`
whose `content` is `none`, and every regular-expression of the source is
translated into an explicit character-level matcher.  Python exceptions that
abort the function are modelled by an `Option` result.
-/

namespace KYC

/-! ### Character classes (Python regex `\w`, `[\w<>]`, `\s`, ASCII reading) -/

def isWordChar (c : Char) : Bool := c.isAlphanum || c == '_'

def isTypeChar (c : Char) : Bool := isWordChar c || c == '<' || c == '>'

def isSpaceChar (c : Char) : Bool :=
  c == ' ' || c == '\t' || c == '\n' || c == '\r' || c == '\x0b' || c == '\x0c'

/-! ### Small list/string library (kept elementary so the kernel can evaluate) -/

def toLowerStr (s : String) : String := String.mk (s.toList.map Char.toLower)

/-- Python's `sub in s` substring test. -/
def isSubstr (pat : List Char) : List Char → Bool
  | [] => pat.isEmpty
  | c :: rest => pat.isPrefixOf (c :: rest) || isSubstr pat rest

def strContains (s sub : String) : Bool := isSubstr sub.toList s.toList

def flatMapL {α β : Type _} (f : α → List β) : List α → List β
  | [] => []
  | a :: l => f a ++ flatMapL f l

def firstSome {α β : Type _} (f : α → Option β) : List α → Option β
  | [] => none
  | a :: l => match f a with | some b => some b | none => firstSome f l

def lastSome {α β : Type _} (f : α → Option β) (l : List α) : Option β :=
  l.foldl (fun acc a => match f a with | some b => some b | none => acc) none

def mapMO {α β : Type _} (f : α → Option β) : List α → Option (List β)
  | [] => some []
  | a :: l =>
    match f a with
    | none => none
    | some b => (mapMO f l).map (fun bs => b :: bs)

def firstIdx {α : Type _} (p : α → Bool) : List α → Option Nat
  | [] => none
  | a :: l => if p a then some 0 else (firstIdx p l).map (· + 1)

/-- Order-preserving deduplication keeping the first element of each key
(the `seen` set / `if key not in seen` idiom of the source). -/
def dedupByKeyAux {α κ : Type _} [DecidableEq κ] (key : α → κ) : List κ → List α → List α
  | _, [] => []
  | seen, a :: l =>
    if key a ∈ seen then dedupByKeyAux key seen l
    else a :: dedupByKeyAux key (key a :: seen) l

def dedupByKey {α κ : Type _} [DecidableEq κ] (key : α → κ) (l : List α) : List α :=
  dedupByKeyAux key [] l

def splitOnChar (sep : Char) : List Char → List (List Char)
  | [] => [[]]
  | c :: rest =>
    let r := splitOnChar sep rest
    if c == sep then [] :: r
    else
      match r with
      | [] => [[c]]
      | h :: t => (c :: h) :: t

def joinWith (sep : List Char) : List (List Char) → List Char
  | [] => []
  | [x] => x
  | x :: y :: rest => x ++ sep ++ joinWith sep (y :: rest)

def stripPrefixL (pat s : List Char) : Option (List Char) :=
  if pat.isPrefixOf s then some (s.drop pat.length) else none

/-- Case-insensitive literal matching (regex `re.IGNORECASE`, ASCII). -/
def ciIsPrefixOf : List Char → List Char → Bool
  | [], _ => true
  | _ :: _, [] => false
  | a :: as, b :: bs => (a.toLower == b.toLower) && ciIsPrefixOf as bs

/-- Python `range(lo, hi)` over integers. -/
def ascRange (lo hi : Int) : List Int :=
  (List.range (hi - lo).toNat).map (fun (k : Nat) => lo + (k : Int))

/-- Python `range(start, stop, -1)` over integers. -/
def descRange (start stop : Int) : List Int :=
  (List.range (start - stop).toNat).map (fun (k : Nat) => start - (k : Int))

/-- `pathlib.Path(...).name`: the component after the last `/`. -/
def pathBaseName (p : String) : String := String.mk ((splitOnChar '/' p.toList).getLastD [])

/-- `pathlib.Path(...).stem`: base name without its final extension
(a dot at position 0 of the base name does not count as an extension). -/
def pathStem (p : String) : String :=
  let b := (splitOnChar '/' p.toList).getLastD []
  match firstIdx (fun c => c == '.') b.reverse with
  | none => String.mk b
  | some i =>
    let idx := b.length - 1 - i
    if 0 < idx then String.mk (b.take idx) else String.mk b

def stripChars (cs : List Char) : List Char :=
  ((cs.dropWhile isSpaceChar).reverse.dropWhile isSpaceChar).reverse

/-- Python `str.strip()`. -/
def pstrip (s : String) : String := String.mk (stripChars s.toList)

def joinLinesC (lines : List String) : List Char := joinWith ['\n'] (lines.map String.toList)

/-! ### `classify_layer` (source lines 21-33) -/

def classify_layer (p : String) : String :=
  let s := toLowerStr p
  if ["model", "entity", "domain"].any (fun x => strContains s x) then "MODEL"
  else if ["repo", "repository", "dao"].any (fun x => strContains s x) then "REPOSITORY"
  else if ["service"].any (fun x => strContains s x) then "SERVICE"
  else if ["controller", "rest", "api"].any (fun x => strContains s x) then "CONTROLLER"
  else if ["ui", "view", "page", "html", "jsp"].any (fun x => strContains s x) then "UI"
  else "DEFAULT"

/-! ### Field declaration matcher
`re.match(r'\s*(private|protected|public)\s+([\w<>]+)\s+([\w_]+)\s*;', line)`
(source line 49).  `re.match` anchors only at the start: trailing text after
the semicolon is accepted.  The character classes `[\w<>]`/`[\w_]` are
disjoint from `\s`, so the greedy regex is equivalent to maximal munch. -/

def stripVis (cs : List Char) : Option (String × List Char) :=
  match stripPrefixL "private".toList cs with
  | some r => some ("private", r)
  | none =>
    match stripPrefixL "protected".toList cs with
    | some r => some ("protected", r)
    | none =>
      match stripPrefixL "public".toList cs with
      | some r => some ("public", r)
      | none => none

def fieldDeclMatch (line : String) : Option (String × String × String) :=
  let cs := line.toList.dropWhile isSpaceChar
  match stripVis cs with
  | none => none
  | some (v, r1) =>
    if (r1.takeWhile isSpaceChar).isEmpty then none
    else
      let r2 := r1.dropWhile isSpaceChar
      let t := r2.takeWhile isTypeChar
      if t.isEmpty then none
      else
        let r3 := r2.dropWhile isTypeChar
        if (r3.takeWhile isSpaceChar).isEmpty then none
        else
          let r4 := r3.dropWhile isSpaceChar
          let n := r4.takeWhile isWordChar
          if n.isEmpty then none
          else
            if ((r4.dropWhile isWordChar).dropWhile isSpaceChar).head? == some ';' then
              some (v, String.mk t, String.mk n)
            else none

/-! ### Declaration-line search
`re.search(rf'{visibility}\s+{re.escape(field_type)}\s+{re.escape(field_name)}\s*;', line)`
(source line 60): the literals of an already-matched field searched at every
start position of the line. -/

def tryDeclAt (v t n : List Char) (cs : List Char) : Bool :=
  match stripPrefixL v cs with
  | none => false
  | some r1 =>
    if (r1.takeWhile isSpaceChar).isEmpty then false
    else
      match stripPrefixL t (r1.dropWhile isSpaceChar) with
      | none => false
      | some r2 =>
        if (r2.takeWhile isSpaceChar).isEmpty then false
        else
          match stripPrefixL n (r2.dropWhile isSpaceChar) with
          | none => false
          | some r3 => (r3.dropWhile isSpaceChar).head? == some ';'

def searchDecl (v t n : String) (line : String) : Bool :=
  let cs := line.toList
  (List.range (cs.length + 1)).any (fun k => tryDeclAt v.toList t.toList n.toList (cs.drop k))

/-! ### Class-name search `re.search(r'class\s+(\w+)', full_source)` (lines 44, 125) -/

def tryClassAt (cs : List Char) : Option (List Char) :=
  match stripPrefixL "class".toList cs with
  | none => none
  | some r =>
    if (r.takeWhile isSpaceChar).isEmpty then none
    else
      let g := (r.dropWhile isSpaceChar).takeWhile isWordChar
      if g.isEmpty then none else some g

def searchClassName (cs : List Char) : Option String :=
  (firstSome (fun k => tryClassAt (cs.drop k)) (List.range (cs.length + 1))).map String.mk

/-! ### Whole-word occurrences `re.finditer(rf'\b{re.escape(field_name)}\b', jcontent)`
(line 121).  A field name is a nonempty run of word characters, so a
word-bounded match never spans a newline and two matches can never overlap;
scanning each line at every position is exactly `finditer` with the line
index recovered by counting newlines. -/

def wordMatchAt (name cs : List Char) (k : Nat) : Bool :=
  name.isPrefixOf (cs.drop k)
  && (k == 0 || !isWordChar (cs.getD (k - 1) ' '))
  && (match (cs.drop (k + name.length)).head? with
      | none => true
      | some c => !isWordChar c)

def wordMatchPositions (name cs : List Char) : List Nat :=
  (List.range (cs.length + 1)).filter (wordMatchAt name cs)

/-! ### Annotation-list findall, e.g. `re.findall(r'@(Entity|Table|...)', jcontent)`
(lines 133, 157).  Every match starts with `@` and contains no later `@`,
so non-overlapping findall equals scanning every position. -/

def firstPrefixOf (alts : List String) (cs : List Char) : Option String :=
  firstSome (fun a => if a.toList.isPrefixOf cs then some a else none) alts

def tryAnnotAt (alts : List String) (cs : List Char) : Option String :=
  match cs with
  | '@' :: r => firstPrefixOf alts r
  | _ => none

def findallAnnots (alts : List String) (cs : List Char) : List String :=
  (List.range (cs.length + 1)).filterMap (fun k => tryAnnotAt alts (cs.drop k))

def ormAlts : List String := ["Entity", "Table", "Column", "Id", "JoinColumn", "ManyToOne", "OneToMany"]

def restAlts : List String :=
  ["GetMapping", "PostMapping", "PutMapping", "DeleteMapping", "RequestMapping", "ApiOperation"]

/-! ### External call findall
`re.findall(r'(httpClient|restTemplate|WebClient)\.(get|post|put|delete)', jcontent)`
(line 158), joined by the source as `f'{c[0]}.{c[1]}'`. -/

def extClientAlts : List String := ["httpClient", "restTemplate", "WebClient"]

def extVerbAlts : List String := ["get", "post", "put", "delete"]

def tryExtCallAt (cs : List Char) : Option String :=
  match firstPrefixOf extClientAlts cs with
  | none => none
  | some cl =>
    match cs.drop cl.length with
    | '.' :: r => (firstPrefixOf extVerbAlts r).map (fun vb => cl ++ "." ++ vb)
    | _ => none

def findallExtCalls (cs : List Char) : List String :=
  (List.range (cs.length + 1)).filterMap (fun k => tryExtCallAt (cs.drop k))

/-! ### SQL verb detection
`re.search(r'(select|update|delete|insert)\s', context_line, re.IGNORECASE)` (line 132). -/

def sqlVerbs : List String := ["select", "update", "delete", "insert"]

def trySqlAt (cs : List Char) : Bool :=
  match firstPrefixOf sqlVerbs cs with
  | none => false
  | some v =>
    match (cs.drop v.length).head? with
    | some c => isSpaceChar c
    | none => false

def sqlDetect (line : String) : Bool :=
  let cs := (toLowerStr line).toList
  (List.range (cs.length + 1)).any (fun k => trySqlAt (cs.drop k))

/-! ### ORM name argument
`re.search(r'@Column\s*\(.*name\s*=\s*"([^"]+)"', lines[j])` and the `@Table`
variant (lines 86, 89).  The greedy `.*` selects the last `name="X"` after the
first completable `@Column(`. -/

def tryNameEqAt (cs : List Char) : Option String :=
  match stripPrefixL "name".toList cs with
  | none => none
  | some r =>
    match r.dropWhile isSpaceChar with
    | '=' :: r2 =>
      match r2.dropWhile isSpaceChar with
      | '"' :: r3 =>
        let g := r3.takeWhile (fun c => c != '"')
        if g.isEmpty then none
        else
          match (r3.dropWhile (fun c => c != '"')).head? with
          | some _ => some (String.mk g)
          | none => none
      | _ => none
    | _ => none

def tryAnnotNameAt (annot : String) (cs : List Char) : Option String :=
  match stripPrefixL annot.toList cs with
  | none => none
  | some r =>
    match r.dropWhile isSpaceChar with
    | '(' :: r2 => lastSome (fun k => tryNameEqAt (r2.drop k)) (List.range (r2.length + 1))
    | _ => none

def colNameSearch (annot : String) (line : String) : Option String :=
  let cs := line.toList
  firstSome (fun k => tryAnnotNameAt annot (cs.drop k)) (List.range (cs.length + 1))

/-! ### Alias comment
`re.search(r'//\s*alias\s*:?\s*([\w_]+)', lines[j], re.IGNORECASE)` (line 94). -/

def tryAliasCommentAt (cs : List Char) : Option String :=
  match stripPrefixL "//".toList cs with
  | none => none
  | some r =>
    let r1 := r.dropWhile isSpaceChar
    if ciIsPrefixOf "alias".toList r1 then
      let r2 := (r1.drop 5).dropWhile isSpaceChar
      let r3 := match r2 with | ':' :: rr => rr | _ => r2
      let g := (r3.dropWhile isSpaceChar).takeWhile isWordChar
      if g.isEmpty then none else some (String.mk g)
    else none

def aliasCommentSearch (line : String) : Option String :=
  let cs := line.toList
  firstSome (fun k => tryAliasCommentAt (cs.drop k)) (List.range (cs.length + 1))

/-! ### Alternative-name findall
`re.findall(rf'{field_name}\s*[:=]\s*([\w_]+)', lines[j])` (line 99),
non-overlapping, so the scan resumes after each match. -/

def tryAltNameAt (name : List Char) (cs : List Char) : Option (String × List Char) :=
  match stripPrefixL name cs with
  | none => none
  | some r =>
    match r.dropWhile isSpaceChar with
    | c :: r2 =>
      if c == ':' || c == '=' then
        let r3 := r2.dropWhile isSpaceChar
        let g := r3.takeWhile isWordChar
        if g.isEmpty then none else some (String.mk g, r3.dropWhile isWordChar)
      else none
    | [] => none

def findallAltGo (name : List Char) : Nat → List Char → List String
  | 0, _ => []
  | _ + 1, [] => []
  | fuel + 1, c :: rest =>
    match tryAltNameAt name (c :: rest) with
    | some (g, rem) => g :: findallAltGo name fuel rem
    | none => findallAltGo name fuel rest

def findallAltNames (name : String) (line : String) : List String :=
  findallAltGo name.toList line.toList.length line.toList

/-! ### Comment and annotation matchers applied to a stripped line
(`re.match(r'@([\w]+)', ...)` line 70, `re.match(r'/\*\*(.*?)\*/', ...)` line 76,
`re.match(r'//(.*)', ...)` line 79). -/

def annotMatch (s : String) : Option String :=
  match s.toList with
  | '@' :: r =>
    let g := r.takeWhile isWordChar
    if g.isEmpty then none else some (String.mk g)
  | _ => none

def docBlockMatch (s : String) : Option String :=
  match stripPrefixL "/**".toList s.toList with
  | none => none
  | some r =>
    firstSome
      (fun k => if "*/".toList.isPrefixOf (r.drop k) then some (String.mk (r.take k)) else none)
      (List.range (r.length + 1))

def lineCommentMatch (s : String) : Option String :=
  match stripPrefixL "//".toList s.toList with
  | none => none
  | some r => some (String.mk r)

/-! ### Data model.  A `JFile` is a project file; `content = none` models a
file whose `read_text` raises (encoding/permission/IO).  A `Component` is one
occurrence dict of the source; the declaration and REST/integration dicts of
the source simply omit the `sql`/`orm` keys, which no later code reads, so
they carry the defaults here. -/

structure JFile where
  path : String
  content : Option (List String)
deriving DecidableEq, Repr

structure Component where
  ctype : String
  filePath : String
  className : String
  usageType : String
  snippet : String
  lineRange : Nat
  explanation : String
  sql : Bool := false
  orm : List String := []
deriving DecidableEq, Repr

structure ImpactEntry where
  explanation : String
  filePath : Option String
  lineRange : Option Nat
deriving DecidableEq, Repr

structure Impact where
  application : List ImpactEntry
  database : List ImpactEntry
  integration : List ImpactEntry
  docsTesting : List ImpactEntry
deriving DecidableEq, Repr

structure Edge where
  efrom : String
  eto : String
  etype : String
  layer : String
deriving DecidableEq, Repr

structure ProcessDiff where
  missing : List String
  matched : List String
  extra : List String
deriving DecidableEq, Repr

/-- The attribute dict of the source minus its run-environment metadata
(`meta.repoRevision`/timestamps/`Batch_ID`, which query git and the clock). -/
structure AttrRecord where
  attributeName : String
  aliases : List String
  components : List Component
  depNodes : List String
  depEdges : List Edge
  impact : Impact
  processDiff : ProcessDiff
  annotations : List String
  explanation : String
  fullSource : String
deriving DecidableEq, Repr

/-! ### Annotation / doc-comment windows above the declaration
(source lines 64-81; `line_num` is 1-based). -/

def lineGetD (lines : List String) (j : Int) : String :=
  if 0 ≤ j then lines.getD j.toNat "" else ""

def inBounds (lines : List String) (j : Int) : Bool := 0 ≤ j && j < (lines.length : Int)

def annotationsAt (lines : List String) (lineNum : Nat) : List String :=
  flatMapL (fun j =>
    if inBounds lines j then (annotMatch (pstrip (lineGetD lines j))).toList else [])
    (descRange ((lineNum : Int) - 2) (max ((lineNum : Int) - 6) (-1)))

def docCommentsAt (lines : List String) (lineNum : Nat) : List String :=
  flatMapL (fun j =>
    if inBounds lines j then
      (docBlockMatch (pstrip (lineGetD lines j))).toList
        ++ (lineCommentMatch (pstrip (lineGetD lines j))).toList
    else [])
    (descRange ((lineNum : Int) - 2) (max ((lineNum : Int) - 10) (-1)))

/-! ### Alias extraction (source lines 82-102).  The windows are the literal
`range(line_num-6, line_num+2)` and `range(max(0,line_num-10), min(len,line_num+10))`
of the source; the Python set is modelled as an order-insensitive dedup list. -/

def aliasCandidates (fieldName : String) (lineNum : Nat) (lines : List String) : List String :=
  let n : Int := lineNum
  flatMapL (fun j =>
    if inBounds lines j then
      (colNameSearch "@Column" (lineGetD lines j)).toList
        ++ (colNameSearch "@Table" (lineGetD lines j)).toList
    else []) (ascRange (n - 6) (n + 2))
  ++ flatMapL (fun j =>
      if inBounds lines j then (aliasCommentSearch (lineGetD lines j)).toList else [])
      (ascRange (n - 6) (n + 2))
  ++ flatMapL (fun j =>
      if inBounds lines j then
        (findallAltNames fieldName (lineGetD lines j)).filter (fun alt => alt != fieldName)
      else [])
      (ascRange (max 0 (n - 10)) (min (lines.length : Int) (n + 10)))

def aliasesOf (fieldName : String) (lineNum : Nat) (lines : List String) : List String :=
  dedupByKey id (aliasCandidates fieldName lineNum lines)

/-! ### Reference scan over every Java file (source lines 116-146).
The whole per-file body is inside `try/except: continue`, so an unreadable
file contributes nothing. -/

def refCompsForFile (fieldName declPath declSnippet : String) (jf : JFile) : List Component :=
  match jf.content with
  | none => []
  | some ls =>
    let contentC := joinLinesC ls
    let cls := (searchClassName contentC).getD (pathStem jf.path)
    flatMapL (fun li =>
      let line := ls.getD li ""
      flatMapL (fun _k =>
        let ctx := pstrip line
        if jf.path == declPath && ctx == declSnippet then []
        else
          [{ ctype := classify_layer jf.path
           , filePath := jf.path
           , className := cls
           , usageType := "REFERENCE"
           , snippet := ctx
           , lineRange := li + 1
           , explanation := "Reference to " ++ fieldName ++ " in class " ++ cls
           , sql := sqlDetect ctx
           , orm := findallAnnots ormAlts contentC }])
        (wordMatchPositions fieldName.toList line.toList))
      (List.range ls.length)

def joinComma (l : List String) : String := String.mk (joinWith [',', ' '] (l.map String.toList))

/-! ### REST / external-call scan (source lines 151-178), one synthetic
component per file and kind, also guarded by `try/except: continue`. -/

def restExtCompsForFile (jf : JFile) : List Component :=
  match jf.content with
  | none => []
  | some ls =>
    let contentC := joinLinesC ls
    let rest := findallAnnots restAlts contentC
    let ext := findallExtCalls contentC
    (if rest.isEmpty then []
     else
       [{ ctype := "CONTROLLER", filePath := jf.path, className := pathStem jf.path
        , usageType := "REST_ANNOTATION", snippet := joinComma rest, lineRange := 0
        , explanation := "REST API annotation(s) in " ++ pathBaseName jf.path }])
    ++ (if ext.isEmpty then []
     else
       [{ ctype := "INTEGRATION", filePath := jf.path, className := pathStem jf.path
        , usageType := "EXTERNAL_CALL", snippet := joinComma ext, lineRange := 0
        , explanation := "External API call(s) in " ++ pathBaseName jf.path }])

/-! ### Dependency graph (source lines 179-236).  The six edge rules are
independent `if`s; every edge goes from the component's class name to the
field name and carries the component's layer. -/

def edgesFor (fieldName : String) (c : Component) : List Edge :=
  (if c.ctype == "MODEL"
      && (c.usageType == "private" || c.usageType == "protected" || c.usageType == "public") then
     [{ efrom := c.className, eto := fieldName, etype := "declaration", layer := c.ctype }] else [])
  ++ (if c.ctype == "REPOSITORY" then
     [{ efrom := c.className, eto := fieldName, etype := "queries", layer := c.ctype }] else [])
  ++ (if c.ctype == "SERVICE" then
     [{ efrom := c.className, eto := fieldName, etype := "calls", layer := c.ctype }] else [])
  ++ (if c.ctype == "CONTROLLER" then
     [{ efrom := c.className, eto := fieldName, etype := "binds", layer := c.ctype }] else [])
  ++ (if c.ctype == "UI" then
     [{ efrom := c.className, eto := fieldName, etype := "ui-binds", layer := c.ctype }] else [])
  ++ (if c.usageType == "REFERENCE" || c.usageType == "UI_REFERENCE" then
     [{ efrom := c.className, eto := fieldName, etype := "refers", layer := c.ctype }] else [])

def buildEdges (fieldName : String) (comps : List Component) : List Edge :=
  flatMapL (edgesFor fieldName) comps

def buildNodes (clsName fieldName : String) (comps : List Component) : List String :=
  dedupByKey id ([clsName, fieldName] ++ flatMapL (fun c => [c.className, c.filePath]) comps)

def compKey (c : Component) : String × String × String := (c.className, c.ctype, c.filePath)

def edgeKey (e : Edge) : String × String × String × String := (e.efrom, e.eto, e.etype, e.layer)

/-! ### Impact classification (source lines 237-366). -/

def placeholderEntry : ImpactEntry :=
  { explanation := "No impact found for this section.", filePath := none, lineRange := none }

def appImpactFor (fieldName : String) (c : Component) : List ImpactEntry :=
  (if c.ctype == "SERVICE" || c.ctype == "CONTROLLER" then
    [{ explanation := "Logic in " ++ c.className ++ " may rely on " ++ fieldName
     , filePath := some c.filePath, lineRange := some c.lineRange }]
    ++ (if strContains (toLowerStr c.snippet) "set" || strContains (toLowerStr c.snippet) "update" then
      [{ explanation := "Setter/update method for " ++ fieldName ++ " in " ++ c.className
       , filePath := some c.filePath, lineRange := some c.lineRange }] else [])
    ++ (if strContains (toLowerStr c.snippet) "get" then
      [{ explanation := "Getter/accessor for " ++ fieldName ++ " in " ++ c.className
       , filePath := some c.filePath, lineRange := some c.lineRange }] else [])
   else [])
  ++ (if c.usageType == "REFERENCE" && (c.ctype == "SERVICE" || c.ctype == "CONTROLLER") then
    [{ explanation := "Direct reference to " ++ fieldName ++ " in " ++ c.className
     , filePath := some c.filePath, lineRange := some c.lineRange }] else [])

def dbImpactFor (fieldName : String) (c : Component) : List ImpactEntry :=
  (if c.ctype == "REPOSITORY" then
    [{ explanation := "Repository " ++ c.className ++ " queries or updates " ++ fieldName
     , filePath := some c.filePath, lineRange := some c.lineRange }]
    ++ (if strContains (toLowerStr c.snippet) "find" || strContains (toLowerStr c.snippet) "save" then
      [{ explanation := "Repository method " ++ c.snippet ++ " interacts with " ++ fieldName
       , filePath := some c.filePath, lineRange := some c.lineRange }] else [])
   else [])
  ++ (if ["sql", "select", "insert", "update", "delete", "where", "from"].any
        (fun kw => strContains (toLowerStr c.snippet) kw) then
    [{ explanation := "SQL/ORM logic involving " ++ fieldName ++ " in " ++ c.className
     , filePath := some c.filePath, lineRange := some c.lineRange }] else [])
  ++ (if strContains (toLowerStr c.snippet) "@column" then
    [{ explanation := "ORM annotation " ++ c.snippet ++ " for " ++ fieldName ++ " in " ++ c.className
     , filePath := some c.filePath, lineRange := some c.lineRange }] else [])

def intImpactFor (fieldName : String) (c : Component) : List ImpactEntry :=
  (if c.ctype == "CONTROLLER" then
    [{ explanation := "API endpoint in " ++ c.className ++ " exposes or modifies " ++ fieldName
     , filePath := some c.filePath, lineRange := some c.lineRange }]
    ++ (if strContains (toLowerStr c.snippet) "@getmapping"
          || strContains (toLowerStr c.snippet) "resttemplate" then
      [{ explanation := "REST mapping or external API for " ++ fieldName ++ " in " ++ c.className
       , filePath := some c.filePath, lineRange := some c.lineRange }] else [])
   else [])
  ++ (if c.ctype == "INTEGRATION" then
    [{ explanation := "External API call " ++ c.snippet ++ " in " ++ c.className ++ " uses " ++ fieldName
     , filePath := some c.filePath, lineRange := some c.lineRange }] else [])
  ++ (if c.ctype == "UI" then
    [{ explanation := "UI element in " ++ c.className ++ " binds to " ++ fieldName
     , filePath := some c.filePath, lineRange := some c.lineRange }] else [])
  ++ (if c.usageType == "UI_REFERENCE" then
    [{ explanation := "UI reference to " ++ fieldName ++ " in " ++ c.className
     , filePath := some c.filePath, lineRange := some c.lineRange }] else [])

/-- Docs/testing rules (source lines 332-357).  NOTE: in the source the
`for comment in doc_comments` loop is nested inside `for comp in components`,
so every doc comment fires once per component. -/
def docImpactFor (fieldName clsName declPath : String) (lineNum : Nat) (docs : List String)
    (c : Component) : List ImpactEntry :=
  (if strContains (toLowerStr c.className) "test" then
    [{ explanation := "Test class " ++ c.className ++ " covers " ++ fieldName
     , filePath := some c.filePath, lineRange := some c.lineRange }] else [])
  ++ (if strContains (toLowerStr c.snippet) "@org.junit.test"
        || strContains (toLowerStr c.snippet) "assert" then
    [{ explanation := "JUnit test for " ++ fieldName ++ " in " ++ c.className
     , filePath := some c.filePath, lineRange := some c.lineRange }] else [])
  ++ (if strContains (toLowerStr c.snippet) "doc" || strContains (toLowerStr c.snippet) "javadoc" then
    [{ explanation := "Documentation for " ++ fieldName ++ " in " ++ c.className
     , filePath := some c.filePath, lineRange := some c.lineRange }] else [])
  ++ docs.map (fun cm =>
    { explanation := "Doc comment: " ++ cm ++ " for " ++ fieldName ++ " in " ++ clsName
    , filePath := some declPath, lineRange := some lineNum })

def rawImpact (comps : List Component) (fieldName clsName declPath : String) (lineNum : Nat)
    (docs : List String) : Impact :=
  { application := flatMapL (appImpactFor fieldName) comps
  , database := flatMapL (dbImpactFor fieldName) comps
  , integration := flatMapL (intImpactFor fieldName) comps
  , docsTesting := flatMapL (docImpactFor fieldName clsName declPath lineNum docs) comps }

def fillQuadrant (l : List ImpactEntry) : List ImpactEntry :=
  if l.isEmpty then [placeholderEntry] else l

def impactOf (comps : List Component) (fieldName clsName declPath : String) (lineNum : Nat)
    (docs : List String) : Impact :=
  let r := rawImpact comps fieldName clsName declPath lineNum docs
  { application := fillQuadrant r.application
  , database := fillQuadrant r.database
  , integration := fillQuadrant r.integration
  , docsTesting := fillQuadrant r.docsTesting }

/-! ### Process diff (source lines 367-381) -/

def processDiffOf (fieldName : String) (comps : List Component) : ProcessDiff :=
  let expected := ["KYC_" ++ fieldName ++ "_Onboarding", "KYC_Verify_" ++ fieldName ++ "_Format"]
  let extracted :=
    (comps.filter (fun c => strContains (toLowerStr c.snippet) "process")).map (fun c => c.snippet)
  { missing := expected.filter (fun p => !(extracted.contains p))
  , matched := expected.filter (fun p => extracted.contains p)
  , extra := extracted.filter (fun p => !(expected.contains p)) }

/-! ### One field of one declaring file (body of the `for idx, field` loop,
source lines 55-430).  `none` models the Python exceptions that escape the
loop: an unreadable HTML file (line 149, unguarded `read_text`), or
`line_num` staying `None` so that `range(line_num-6, ...)` raises. -/

def processField (javaPath : String) (lines : List String) (className : String)
    (allJava allHtml : List JFile) (fld : String × String × String) : Option AttrRecord :=
  match fld with
  | (vis, ftype, fname) =>
    match firstIdx (fun l => searchDecl vis ftype fname l) lines with
    | none => none
    | some i =>
      let lineNum := i + 1
      let snippet := pstrip (lines.getD i "")
      let annots := annotationsAt lines lineNum
      let docs := docCommentsAt lines lineNum
      let aliases := aliasesOf fname lineNum lines
      let expl := "Field " ++ fname ++ " of type " ++ ftype ++ " in class " ++ className
      let declComp : Component :=
        { ctype := classify_layer javaPath, filePath := javaPath, className := className
        , usageType := vis, snippet := snippet, lineRange := lineNum, explanation := expl }
      let comps1 := declComp :: flatMapL (refCompsForFile fname javaPath snippet) allJava
      if allHtml.any (fun h => h.content.isNone) then none
      else
        let comps := comps1 ++ flatMapL restExtCompsForFile allJava
        some
          { attributeName := fname
          , aliases := aliases
          , components := dedupByKey compKey comps
          , depNodes := buildNodes className fname comps
          , depEdges := dedupByKey edgeKey (buildEdges fname comps)
          , impact := impactOf comps fname className javaPath lineNum docs
          , processDiff := processDiffOf fname comps
          , annotations := annots
          , explanation := expl
          , fullSource := String.mk (joinLinesC lines) }

/-! ### Whole declaring file (source lines 35-431) and the scan loop of
`scan_java_project` (lines 433-451); the boolean of the pair records whether
an exception aborted the run, the list what was already written. -/

def fieldsOf (lines : List String) : List (String × String × String) :=
  flatMapL (fun l => (fieldDeclMatch l).toList) lines

def extract_attributes_from_java (declFile : JFile) (allJava allHtml : List JFile) :
    Option (List AttrRecord) :=
  match declFile.content with
  | none => none
  | some lines =>
    let className := (searchClassName (joinLinesC lines)).getD (pathStem declFile.path)
    mapMO (processField declFile.path lines className allJava allHtml) (fieldsOf lines)

def scanJavaProjectRun : List JFile → List JFile → List JFile → List AttrRecord × Bool
  | [], _, _ => ([], false)
  | f :: fs, allJava, allHtml =>
    match extract_attributes_from_java f allJava allHtml with
    | none => ([], true)
    | some recs =>
      let r := scanJavaProjectRun fs allJava allHtml
      (recs ++ r.1, r.2)

/-! ### Declaration-line shape.  `DeclShape line v t n` says the line splits,
after leading whitespace, into a visibility keyword, whitespace, a type token
of `[\w<>]` characters, whitespace, a `[\w_]` identifier, optional whitespace,
a semicolon, and then arbitrary trailing text. -/

def DeclShape (line v t n : String) : Prop :=
  ∃ w0 w1 w2 w3 r,
    line.toList = w0 ++ (v.toList ++ (w1 ++ (t.toList ++ (w2 ++ (n.toList ++ (w3 ++ ';' :: r))))))
    ∧ (∀ c ∈ w0, isSpaceChar c = true)
    ∧ (v = "private" ∨ v = "protected" ∨ v = "public")
    ∧ w1 ≠ [] ∧ (∀ c ∈ w1, isSpaceChar c = true)
    ∧ t.toList ≠ [] ∧ (∀ c ∈ t.toList, isTypeChar c = true)
    ∧ w2 ≠ [] ∧ (∀ c ∈ w2, isSpaceChar c = true)
    ∧ n.toList ≠ [] ∧ (∀ c ∈ n.toList, isWordChar c = true)
    ∧ (∀ c ∈ w3, isSpaceChar c = true)

/-! ### Concrete instances used by counterexamples and witnesses -/

def exDefaultFile : JFile := ⟨"app/User.java", some ["class User \x7b", "private int flag;", "\x7d"]⟩

def exDocFile : JFile := ⟨"a/User.java", some ["class User \x7b", "// the note", "private int flag;", "\x7d"]⟩

def exHelperFile : JFile := ⟨"b/Helper.java", some ["flag"]⟩

def exModelFile : JFile := ⟨"model/User.java", some ["class User \x7b", "private int flag;", "\x7d"]⟩

def exCommentDecl : JFile := ⟨"p/B.java", some ["// private int x;", "private int x;"]⟩

def exBadHtml : JFile := ⟨"ui/page.html", none⟩

def exBadJava : JFile := ⟨"x/Bad.java", none⟩

def exSelfRefFile : JFile := ⟨"p/F.java", some ["private int x;", "x;"]⟩

def exRefComp : Component :=
  ⟨"DEFAULT", "p/F.java", "F", "REFERENCE", "x;", 2, "Reference to x in class F", false, []⟩

def exRepoComp : Component := ⟨"REPOSITORY", "r/R.java", "R", "REFERENCE", "s", 1, "e", false, []⟩

def exDupA : Component := ⟨"DEFAULT", "f.java", "C", "REFERENCE", "s1", 1, "e1", false, []⟩

def exDupB : Component := ⟨"DEFAULT", "f.java", "C", "REFERENCE", "s2", 2, "e2", false, []⟩

def exC5Lines : List String :=
  ["@Column(name=\"FAR\")", "", "", "", "", "", "private String email;", ""]

def exDeclComp : Component :=
  ⟨"DEFAULT", "app/User.java", "User", "private", "private int flag;", 2,
    "Field flag of type int in class User", false, []⟩

def exC5PosLines : List String := ["@Column(name=\"USER_EMAIL\")", "private String email;"]

/-! ## Helper lemmas -/

theorem mem_flatMapL {α β : Type _} (f : α → List β) (l : List α) (b : β) :
    b ∈ flatMapL f l ↔ ∃ a ∈ l, b ∈ f a := by
  induction l with
  | nil => simp [flatMapL]
  | cons a l ih => simp [flatMapL, List.mem_append, ih]

theorem mem_ite_singleton {α : Type _} {b : Bool} {x y : α} :
    x ∈ (if b then [y] else ([] : List α)) → x = y := by
  cases b <;> simp

theorem dedupByKeyAux_not_mem_seen {α κ : Type _} [DecidableEq κ] (key : α → κ)
    (seen : List κ) (l : List α) :
    ∀ x ∈ dedupByKeyAux key seen l, key x ∉ seen := by
  induction l generalizing seen with
  | nil => simp [dedupByKeyAux]
  | cons a l ih =>
    intro x hx
    simp only [dedupByKeyAux] at hx
    split at hx
    · exact ih seen x hx
    · rename_i hmem
      rcases List.mem_cons.mp hx with rfl | hx'
      · exact hmem
      · intro hcon
        exact ih (key a :: seen) x hx' (List.mem_cons_of_mem _ hcon)

theorem dedupByKeyAux_pairwise {α κ : Type _} [DecidableEq κ] (key : α → κ)
    (seen : List κ) (l : List α) :
    (dedupByKeyAux key seen l).Pairwise (fun a b => key a ≠ key b) := by
  induction l generalizing seen with
  | nil => simp [dedupByKeyAux]
  | cons a l ih =>
    simp only [dedupByKeyAux]
    split
    · exact ih seen
    · refine List.Pairwise.cons ?_ (ih (key a :: seen))
      intro b hb hkey
      exact dedupByKeyAux_not_mem_seen key (key a :: seen) l b hb
        (hkey ▸ List.mem_cons_self _ _)

theorem dedupByKeyAux_idem {α κ : Type _} [DecidableEq κ] (key : α → κ)
    (seen : List κ) (l : List α) :
    dedupByKeyAux key seen (dedupByKeyAux key seen l) = dedupByKeyAux key seen l := by
  induction l generalizing seen with
  | nil => simp [dedupByKeyAux]
  | cons a l ih =>
    simp only [dedupByKeyAux]
    split
    · exact ih seen
    · rename_i hmem
      simp only [dedupByKeyAux, if_neg hmem]
      rw [ih (key a :: seen)]

theorem dedupByKeyAux_countP {α κ : Type _} [DecidableEq κ] (key : α → κ)
    (seen : List κ) (l : List α) (k : κ) :
    (dedupByKeyAux key seen l).countP (fun x => decide (key x = k)) =
      if k ∈ seen then 0 else if k ∈ l.map key then 1 else 0 := by
  induction l generalizing seen with
  | nil => simp [dedupByKeyAux]
  | cons a l ih =>
    simp only [dedupByKeyAux]
    split
    · rename_i hseen
      rw [ih]
      by_cases hk : k ∈ seen
      · simp [hk]
      · have hka : ¬k = key a := by
          intro h
          exact hk (h ▸ hseen)
        simp [hk, List.map_cons, List.mem_cons, hka]
    · rename_i hseen
      rw [List.countP_cons, ih (key a :: seen)]
      by_cases hka : key a = k
      · subst hka
        have hks : ¬(key a ∈ seen) := hseen
        simp [hks, List.mem_cons]
      · have hka2 : ¬k = key a := by
          intro h
          exact hka h.symm
        have h2 : (k ∈ key a :: seen) ↔ k ∈ seen := by
          simp [List.mem_cons, hka2]
        by_cases hk : k ∈ seen
        · simp [hk, h2, hka]
        · simp [hk, h2, List.map_cons, List.mem_cons, hka, hka2]

theorem mem_dedupByKeyAux_id {α : Type _} [DecidableEq α] (seen : List α) (l : List α) (a : α) :
    a ∈ dedupByKeyAux id seen l ↔ a ∈ l ∧ a ∉ seen := by
  induction l generalizing seen with
  | nil => simp [dedupByKeyAux]
  | cons b l ih =>
    simp only [dedupByKeyAux, id]
    split
    · rename_i hb
      rw [ih]
      constructor
      · rintro ⟨h1, h2⟩
        exact ⟨List.mem_cons_of_mem _ h1, h2⟩
      · rintro ⟨h1, h2⟩
        rcases List.mem_cons.mp h1 with rfl | h1'
        · exact absurd hb h2
        · exact ⟨h1', h2⟩
    · rename_i hb
      simp only [List.mem_cons, ih, List.mem_cons]
      constructor
      · rintro (rfl | ⟨h1, h2⟩)
        · exact ⟨Or.inl rfl, hb⟩
        · refine ⟨Or.inr h1, fun hc => h2 (Or.inr hc)⟩
      · rintro ⟨h1 | h1, h2⟩
        · exact Or.inl h1
        · by_cases hab : a = b
          · exact Or.inl hab
          · exact Or.inr ⟨h1, fun hc => (hc.elim hab h2)⟩

theorem mem_dedupByKey_id {α : Type _} [DecidableEq α] (l : List α) (a : α) :
    a ∈ dedupByKey id l ↔ a ∈ l := by
  rw [dedupByKey, mem_dedupByKeyAux_id]
  simp

theorem dedupByKey_subset {α κ : Type _} [DecidableEq κ] (key : α → κ) (l : List α) :
    ∀ x ∈ dedupByKey key l, x ∈ l := by
  rw [dedupByKey]
  generalize ([] : List κ) = seen
  induction l generalizing seen with
  | nil => simp [dedupByKeyAux]
  | cons a l ih =>
    intro x hx
    simp only [dedupByKeyAux] at hx
    split at hx
    · exact List.mem_cons_of_mem _ (ih seen x hx)
    · rcases List.mem_cons.mp hx with rfl | hx'
      · exact List.mem_cons_self _ _
      · exact List.mem_cons_of_mem _ (ih (key a :: seen) x hx')

theorem mapMO_mem {α β : Type _} (f : α → Option β) (l : List α) (bs : List β) :
    mapMO f l = some bs → ∀ b ∈ bs, ∃ a ∈ l, f a = some b := by
  induction l generalizing bs with
  | nil =>
    intro h b hb
    simp only [mapMO] at h
    cases h
    simp at hb
  | cons a l ih =>
    intro h b hb
    simp only [mapMO] at h
    cases hfa : f a with
    | none => rw [hfa] at h; cases h
    | some b0 =>
      rw [hfa] at h
      cases hml : mapMO f l with
      | none => rw [hml] at h; cases h
      | some bs0 =>
        rw [hml] at h
        simp only [Option.map_some] at h
        cases h
        rcases List.mem_cons.mp hb with rfl | hb'
        · exact ⟨a, List.mem_cons_self _ _, hfa⟩
        · obtain ⟨a1, ha1, hfa1⟩ := ih bs0 hml b hb'
          exact ⟨a1, List.mem_cons_of_mem _ ha1, hfa1⟩

theorem refCompsForFile_shape (fname declPath declSnippet : String) (jf : JFile)
    (c : Component) :
    c ∈ refCompsForFile fname declPath declSnippet jf →
      c.usageType = "REFERENCE" ∧ c.filePath = jf.path ∧
        (jf.path = declPath → c.snippet ≠ declSnippet) := by
  intro hc
  cases hcont : jf.content with
  | none => rw [refCompsForFile, hcont] at hc; simp at hc
  | some ls =>
    rw [refCompsForFile, hcont] at hc
    simp only at hc
    obtain ⟨li, _, hc2⟩ := (mem_flatMapL _ _ _).mp hc
    obtain ⟨k, _, hc3⟩ := (mem_flatMapL _ _ _).mp hc2
    split at hc3
    · simp at hc3
    · rename_i hcond
      rcases List.mem_singleton.mp hc3 with rfl
      refine ⟨rfl, rfl, fun hpath hsnip => ?_⟩
      apply hcond
      simp only [Bool.and_eq_true, beq_iff_eq]
      exact ⟨hpath, hsnip⟩

theorem processField_components (javaPath : String) (lines : List String) (className : String)
    (allJava allHtml : List JFile) (fld : String × String × String) (r : AttrRecord) :
    processField javaPath lines className allJava allHtml fld = some r →
    ∃ comps, r.components = dedupByKey compKey comps := by
  obtain ⟨vis, ftype, fname⟩ := fld
  intro h
  simp only [processField] at h
  cases hidx : firstIdx (fun l => searchDecl vis ftype fname l) lines with
  | none => rw [hidx] at h; cases h
  | some i =>
    rw [hidx] at h
    simp only at h
    split at h
    · cases h
    · cases h
      exact ⟨_, rfl⟩

theorem edgesFor_shape (fname : String) (c : Component) (e : Edge) :
    e ∈ edgesFor fname c → e.efrom = c.className ∧ e.eto = fname ∧ e.layer = c.ctype := by
  intro he
  rw [edgesFor] at he
  rcases List.mem_append.mp he with he2 | h
  on_goal 2 => obtain rfl := mem_ite_singleton h; exact ⟨rfl, rfl, rfl⟩
  rcases List.mem_append.mp he2 with he3 | h
  on_goal 2 => obtain rfl := mem_ite_singleton h; exact ⟨rfl, rfl, rfl⟩
  rcases List.mem_append.mp he3 with he4 | h
  on_goal 2 => obtain rfl := mem_ite_singleton h; exact ⟨rfl, rfl, rfl⟩
  rcases List.mem_append.mp he4 with he5 | h
  on_goal 2 => obtain rfl := mem_ite_singleton h; exact ⟨rfl, rfl, rfl⟩
  rcases List.mem_append.mp he5 with h | h
  · obtain rfl := mem_ite_singleton h; exact ⟨rfl, rfl, rfl⟩
  · obtain rfl := mem_ite_singleton h; exact ⟨rfl, rfl, rfl⟩

theorem append_all_takeWhile {p : Char → Bool} (xs ys : List Char)
    (h : ∀ x ∈ xs, p x = true) : (xs ++ ys).takeWhile p = xs ++ ys.takeWhile p := by
  induction xs with
  | nil => simp
  | cons a l ih =>
    have ha := h a (List.mem_cons_self a l)
    simp only [List.cons_append, List.takeWhile_cons_of_pos ha]
    rw [ih (fun x hx => h x (List.mem_cons_of_mem a hx))]

theorem append_all_dropWhile {p : Char → Bool} (xs ys : List Char)
    (h : ∀ x ∈ xs, p x = true) : (xs ++ ys).dropWhile p = ys.dropWhile p := by
  induction xs with
  | nil => simp
  | cons a l ih =>
    have ha := h a (List.mem_cons_self a l)
    simp only [List.cons_append, List.dropWhile_cons_of_pos ha]
    exact ih (fun x hx => h x (List.mem_cons_of_mem a hx))

theorem takeWhile_run {p : Char → Bool} (xs ys : List Char)
    (hxs : ∀ x ∈ xs, p x = true)
    (hys : ∀ c, ys.head? = some c → p c = false) :
    (xs ++ ys).takeWhile p = xs := by
  rw [append_all_takeWhile xs ys hxs]
  cases ys with
  | nil => simp
  | cons y yt =>
    rw [List.takeWhile_cons_of_neg]
    · simp
    · simp [hys y rfl]

theorem dropWhile_run {p : Char → Bool} (xs ys : List Char)
    (hxs : ∀ x ∈ xs, p x = true)
    (hys : ∀ c, ys.head? = some c → p c = false) :
    (xs ++ ys).dropWhile p = ys := by
  rw [append_all_dropWhile xs ys hxs]
  cases ys with
  | nil => simp
  | cons y yt =>
    rw [List.dropWhile_cons_of_neg]
    simp [hys y rfl]

theorem isPrefixOf_append_self (l tl : List Char) : l.isPrefixOf (l ++ tl) = true := by
  induction l with
  | nil => simp [List.isPrefixOf]
  | cons a l ih => simp [List.isPrefixOf, ih]

theorem append_drop_of_isPrefixOf (pat : List Char) :
    ∀ s, pat.isPrefixOf s = true → s = pat ++ s.drop pat.length := by
  induction pat with
  | nil => intro s _; simp
  | cons a pat ih =>
    intro s h
    cases s with
    | nil => simp [List.isPrefixOf] at h
    | cons b s =>
      simp only [List.isPrefixOf, Bool.and_eq_true, beq_iff_eq] at h
      obtain ⟨rfl, h2⟩ := h
      have h3 := ih s h2
      simp only [List.cons_append, List.length_cons, List.drop_succ_cons]
      exact congrArg (a :: ·) h3

theorem stripPrefixL_eq {pat s r : List Char} : stripPrefixL pat s = some r → s = pat ++ r := by
  intro h
  rw [stripPrefixL] at h
  split at h
  · rename_i hpre
    cases h
    exact append_drop_of_isPrefixOf pat s hpre
  · cases h

theorem stripPrefixL_append (pat rest : List Char) : stripPrefixL pat (pat ++ rest) = some rest := by
  rw [stripPrefixL, if_pos (isPrefixOf_append_self pat rest), List.drop_left]

theorem spaceChar_not_typeChar {c : Char} (h : isSpaceChar c = true) : isTypeChar c = false := by
  simp only [isSpaceChar, Bool.or_eq_true, beq_iff_eq] at h
  rcases h with ((((rfl | rfl) | rfl) | rfl) | rfl) | rfl <;> decide

theorem spaceChar_not_wordChar {c : Char} (h : isSpaceChar c = true) : isWordChar c = false := by
  simp only [isSpaceChar, Bool.or_eq_true, beq_iff_eq] at h
  rcases h with ((((rfl | rfl) | rfl) | rfl) | rfl) | rfl <;> decide

theorem typeChar_not_spaceChar {c : Char} (h : isTypeChar c = true) : isSpaceChar c = false := by
  cases hs : isSpaceChar c
  · rfl
  · rw [spaceChar_not_typeChar hs] at h
    cases h

theorem wordChar_not_spaceChar {c : Char} (h : isWordChar c = true) : isSpaceChar c = false := by
  cases hs : isSpaceChar c
  · rfl
  · rw [spaceChar_not_wordChar hs] at h
    cases h

theorem stripVis_eq {cs : List Char} {v : String} {r : List Char} :
    stripVis cs = some (v, r) →
      (v = "private" ∨ v = "protected" ∨ v = "public") ∧ cs = v.toList ++ r := by
  intro h
  unfold stripVis at h
  cases h1 : stripPrefixL "private".toList cs with
  | some r1 =>
    rw [h1] at h
    cases h
    exact ⟨Or.inl rfl, stripPrefixL_eq h1⟩
  | none =>
    rw [h1] at h
    cases h2 : stripPrefixL "protected".toList cs with
    | some r2 =>
      rw [h2] at h
      cases h
      exact ⟨Or.inr (Or.inl rfl), stripPrefixL_eq h2⟩
    | none =>
      rw [h2] at h
      cases h3 : stripPrefixL "public".toList cs with
      | some r3 =>
        rw [h3] at h
        cases h
        exact ⟨Or.inr (Or.inr rfl), stripPrefixL_eq h3⟩
      | none =>
        rw [h3] at h
        cases h

theorem stripVis_append (v : String) (rest : List Char)
    (hv : v = "private" ∨ v = "protected" ∨ v = "public") :
    stripVis (v.toList ++ rest) = some (v, rest) := by
  rcases hv with rfl | rfl | rfl
  · simp only [stripVis, stripPrefixL_append]
  · have h1 : stripPrefixL "private".toList ("protected".toList ++ rest) = none := rfl
    simp only [stripVis, h1, stripPrefixL_append]
  · have h1 : stripPrefixL "private".toList ("public".toList ++ rest) = none := rfl
    have h2 : stripPrefixL "protected".toList ("public".toList ++ rest) = none := rfl
    simp only [stripVis, h1, h2, stripPrefixL_append]

theorem fieldDeclMatch_shape {line v t n : String} :
    fieldDeclMatch line = some (v, t, n) → DeclShape line v t n := by
  intro h
  simp only [fieldDeclMatch] at h
  cases hv : stripVis (line.toList.dropWhile isSpaceChar) with
  | none => rw [hv] at h; cases h
  | some p =>
    obtain ⟨v0, r1⟩ := p
    rw [hv] at h
    simp only at h
    split at h
    · cases h
    rename_i hw1g
    split at h
    · cases h
    rename_i htg
    split at h
    · cases h
    rename_i hw2g
    split at h
    · cases h
    rename_i hng
    split at h
    swap
    · cases h
    rename_i hsemi
    cases h
    obtain ⟨hv3, hcs⟩ := stripVis_eq hv
    obtain ⟨rr, hrr⟩ : ∃ rr,
        ((((r1.dropWhile isSpaceChar).dropWhile isTypeChar).dropWhile
          isSpaceChar).dropWhile isWordChar).dropWhile isSpaceChar = ';' :: rr := by
      cases hx : ((((r1.dropWhile isSpaceChar).dropWhile isTypeChar).dropWhile
          isSpaceChar).dropWhile isWordChar).dropWhile isSpaceChar with
      | nil => rw [hx] at hsemi; simp at hsemi
      | cons c tl =>
        rw [hx] at hsemi
        simp only [List.head?_cons, beq_iff_eq, Option.some.injEq] at hsemi
        exact ⟨tl, by rw [hsemi]⟩
    have hne : ∀ l : List Char, ¬(l.isEmpty = true) → l ≠ [] := by
      intro l hl he
      exact hl (by rw [he]; rfl)
    have E : ∀ (x : List Char) {a b : List Char}, a = b → x ++ a = x ++ b := by
      intro x a b hab
      rw [hab]
    refine ⟨line.toList.takeWhile isSpaceChar,
            r1.takeWhile isSpaceChar,
            ((r1.dropWhile isSpaceChar).dropWhile isTypeChar).takeWhile isSpaceChar,
            ((((r1.dropWhile isSpaceChar).dropWhile isTypeChar).dropWhile
              isSpaceChar).dropWhile isWordChar).takeWhile isSpaceChar,
            rr, ?_, ?_, hv3, ?_, ?_, ?_, ?_, ?_, ?_, ?_, ?_, ?_⟩
    · calc line.toList
          = line.toList.takeWhile isSpaceChar ++ line.toList.dropWhile isSpaceChar :=
            (List.takeWhile_append_dropWhile _ _).symm
        _ = line.toList.takeWhile isSpaceChar ++ (v.toList ++ r1) := by rw [hcs]
        _ = line.toList.takeWhile isSpaceChar ++ (v.toList
              ++ (r1.takeWhile isSpaceChar ++ r1.dropWhile isSpaceChar)) :=
            E _ (E _ (List.takeWhile_append_dropWhile _ _).symm)
        _ = line.toList.takeWhile isSpaceChar ++ (v.toList
              ++ (r1.takeWhile isSpaceChar
                ++ ((r1.dropWhile isSpaceChar).takeWhile isTypeChar
                  ++ (r1.dropWhile isSpaceChar).dropWhile isTypeChar))) :=
            E _ (E _ (E _ (List.takeWhile_append_dropWhile _ _).symm))
        _ = line.toList.takeWhile isSpaceChar ++ (v.toList
              ++ (r1.takeWhile isSpaceChar
                ++ ((r1.dropWhile isSpaceChar).takeWhile isTypeChar
                  ++ (((r1.dropWhile isSpaceChar).dropWhile isTypeChar).takeWhile isSpaceChar
                    ++ ((r1.dropWhile isSpaceChar).dropWhile isTypeChar).dropWhile
                      isSpaceChar)))) :=
            E _ (E _ (E _ (E _ (List.takeWhile_append_dropWhile _ _).symm)))
        _ = line.toList.takeWhile isSpaceChar ++ (v.toList
              ++ (r1.takeWhile isSpaceChar
                ++ ((r1.dropWhile isSpaceChar).takeWhile isTypeChar
                  ++ (((r1.dropWhile isSpaceChar).dropWhile isTypeChar).takeWhile isSpaceChar
                    ++ ((((r1.dropWhile isSpaceChar).dropWhile isTypeChar).dropWhile
                          isSpaceChar).takeWhile isWordChar
                      ++ (((r1.dropWhile isSpaceChar).dropWhile isTypeChar).dropWhile
                          isSpaceChar).dropWhile isWordChar))))) :=
            E _ (E _ (E _ (E _ (E _ (List.takeWhile_append_dropWhile _ _).symm))))
        _ = line.toList.takeWhile isSpaceChar ++ (v.toList
              ++ (r1.takeWhile isSpaceChar
                ++ ((r1.dropWhile isSpaceChar).takeWhile isTypeChar
                  ++ (((r1.dropWhile isSpaceChar).dropWhile isTypeChar).takeWhile isSpaceChar
                    ++ ((((r1.dropWhile isSpaceChar).dropWhile isTypeChar).dropWhile
                          isSpaceChar).takeWhile isWordChar
                      ++ (((((r1.dropWhile isSpaceChar).dropWhile isTypeChar).dropWhile
                            isSpaceChar).dropWhile isWordChar).takeWhile isSpaceChar
                        ++ ((((r1.dropWhile isSpaceChar).dropWhile isTypeChar).dropWhile
                            isSpaceChar).dropWhile isWordChar).dropWhile isSpaceChar)))))) :=
            E _ (E _ (E _ (E _ (E _ (E _ (List.takeWhile_append_dropWhile _ _).symm)))))
        _ = line.toList.takeWhile isSpaceChar ++ (v.toList
              ++ (r1.takeWhile isSpaceChar
                ++ ((r1.dropWhile isSpaceChar).takeWhile isTypeChar
                  ++ (((r1.dropWhile isSpaceChar).dropWhile isTypeChar).takeWhile isSpaceChar
                    ++ ((((r1.dropWhile isSpaceChar).dropWhile isTypeChar).dropWhile
                          isSpaceChar).takeWhile isWordChar
                      ++ (((((r1.dropWhile isSpaceChar).dropWhile isTypeChar).dropWhile
                            isSpaceChar).dropWhile isWordChar).takeWhile isSpaceChar
                        ++ ';' :: rr)))))) :=
            E _ (E _ (E _ (E _ (E _ (E _ (E _ hrr))))))
    · intro c hc
      exact List.mem_takeWhile_imp hc
    · exact hne _ hw1g
    · intro c hc
      exact List.mem_takeWhile_imp hc
    · exact hne _ htg
    · intro c hc
      exact List.mem_takeWhile_imp hc
    · exact hne _ hw2g
    · intro c hc
      exact List.mem_takeWhile_imp hc
    · exact hne _ hng
    · intro c hc
      exact List.mem_takeWhile_imp hc
    · intro c hc
      exact List.mem_takeWhile_imp hc

theorem shape_fieldDeclMatch {line v t n : String} :
    DeclShape line v t n → fieldDeclMatch line = some (v, t, n) := by
  rintro ⟨w0, w1, w2, w3, r, hline, hw0, hv, hw1ne, hw1, htne, ht, hw2ne, hw2, hnne, hn, hw3⟩
  obtain ⟨c1, t1, hteq⟩ : ∃ c1 t1, t.toList = c1 :: t1 := by
    cases hx : t.toList
    · exact absurd hx htne
    · exact ⟨_, _, rfl⟩
  obtain ⟨cn, n1, hneq⟩ : ∃ cn n1, n.toList = cn :: n1 := by
    cases hx : n.toList
    · exact absurd hx hnne
    · exact ⟨_, _, rfl⟩
  obtain ⟨cw2, w2t, hw2eq⟩ : ∃ c l, w2 = c :: l := by
    cases hx : w2
    · exact absurd hx hw2ne
    · exact ⟨_, _, rfl⟩
  have hc1 : isTypeChar c1 = true := ht c1 (by rw [hteq]; exact List.mem_cons_self _ _)
  have hcn : isWordChar cn = true := hn cn (by rw [hneq]; exact List.mem_cons_self _ _)
  have hcw2 : isSpaceChar cw2 = true := hw2 cw2 (by rw [hw2eq]; exact List.mem_cons_self _ _)
  obtain ⟨cv, vt, hveq, hcv⟩ : ∃ cv vt, v.toList = cv :: vt ∧ isSpaceChar cv = false := by
    rcases hv with rfl | rfl | rfl
    · exact ⟨'p', "rivate".toList, rfl, by decide⟩
    · exact ⟨'p', "rotected".toList, rfl, by decide⟩
    · exact ⟨'p', "ublic".toList, rfl, by decide⟩
  have hd0 : line.toList.dropWhile isSpaceChar
      = v.toList ++ (w1 ++ (t.toList ++ (w2 ++ (n.toList ++ (w3 ++ ';' :: r))))) := by
    rw [hline, append_all_dropWhile w0 _ hw0, hveq, List.cons_append,
      List.dropWhile_cons_of_neg (by simp [hcv]), ← List.cons_append, ← hveq]
  have hTstop : ∀ c, (t.toList ++ (w2 ++ (n.toList ++ (w3 ++ ';' :: r)))).head? = some c →
      isSpaceChar c = false := by
    intro c hc
    rw [hteq, List.cons_append, List.head?_cons] at hc
    cases hc
    exact typeChar_not_spaceChar hc1
  have hw1take : (w1 ++ (t.toList ++ (w2 ++ (n.toList ++ (w3 ++ ';' :: r))))).takeWhile
      isSpaceChar = w1 := takeWhile_run _ _ hw1 hTstop
  have hw1drop : (w1 ++ (t.toList ++ (w2 ++ (n.toList ++ (w3 ++ ';' :: r))))).dropWhile
      isSpaceChar = t.toList ++ (w2 ++ (n.toList ++ (w3 ++ ';' :: r))) :=
    dropWhile_run _ _ hw1 hTstop
  have hW2stop : ∀ c, (w2 ++ (n.toList ++ (w3 ++ ';' :: r))).head? = some c →
      isTypeChar c = false := by
    intro c hc
    rw [hw2eq, List.cons_append, List.head?_cons] at hc
    cases hc
    exact spaceChar_not_typeChar hcw2
  have httake : (t.toList ++ (w2 ++ (n.toList ++ (w3 ++ ';' :: r)))).takeWhile isTypeChar
      = t.toList := takeWhile_run _ _ ht hW2stop
  have htdrop : (t.toList ++ (w2 ++ (n.toList ++ (w3 ++ ';' :: r)))).dropWhile isTypeChar
      = w2 ++ (n.toList ++ (w3 ++ ';' :: r)) := dropWhile_run _ _ ht hW2stop
  have hNstop : ∀ c, (n.toList ++ (w3 ++ ';' :: r)).head? = some c →
      isSpaceChar c = false := by
    intro c hc
    rw [hneq, List.cons_append, List.head?_cons] at hc
    cases hc
    exact wordChar_not_spaceChar hcn
  have hw2take : (w2 ++ (n.toList ++ (w3 ++ ';' :: r))).takeWhile isSpaceChar = w2 :=
    takeWhile_run _ _ hw2 hNstop
  have hw2drop : (w2 ++ (n.toList ++ (w3 ++ ';' :: r))).dropWhile isSpaceChar
      = n.toList ++ (w3 ++ ';' :: r) := dropWhile_run _ _ hw2 hNstop
  have hW3stop : ∀ c, (w3 ++ ';' :: r).head? = some c → isWordChar c = false := by
    intro c hc
    cases hx : w3 with
    | nil =>
      rw [hx] at hc
      simp only [List.nil_append, List.head?_cons] at hc
      cases hc
      decide
    | cons cw3 w3t =>
      rw [hx, List.cons_append, List.head?_cons] at hc
      cases hc
      exact spaceChar_not_wordChar (hw3 _ (by rw [hx]; exact List.mem_cons_self _ _))
  have hntake : (n.toList ++ (w3 ++ ';' :: r)).takeWhile isWordChar = n.toList :=
    takeWhile_run _ _ hn hW3stop
  have hndrop : (n.toList ++ (w3 ++ ';' :: r)).dropWhile isWordChar = w3 ++ ';' :: r :=
    dropWhile_run _ _ hn hW3stop
  have hfinal : (w3 ++ ';' :: r).dropWhile isSpaceChar = ';' :: r := by
    refine dropWhile_run _ _ hw3 ?_
    intro c hc
    simp only [List.head?_cons] at hc
    cases hc
    decide
  have hw1E : w1.isEmpty = false := by
    cases hx : w1
    · exact absurd hx hw1ne
    · rfl
  have htE : t.toList.isEmpty = false := by
    rw [hteq]; rfl
  have hw2E : w2.isEmpty = false := by
    rw [hw2eq]; rfl
  have hnE : n.toList.isEmpty = false := by
    rw [hneq]; rfl
  have hmkt : String.mk t.toList = t := rfl
  have hmkn : String.mk n.toList = n := rfl
  simp only [fieldDeclMatch]
  rw [hd0, stripVis_append v _ hv]
  simp only [hw1take, hw1drop, httake, htdrop, hw2take, hw2drop, hntake, hndrop, hfinal,
    hw1E, htE, hw2E, hnE, hmkt, hmkn, Bool.false_eq_true, if_false, List.head?_cons]
  rfl

theorem shape_searchDecl {line v t n : String} (h : DeclShape line v t n) :
    searchDecl v t n line = true := by
  obtain ⟨w0, w1, w2, w3, r, hline, hw0, hv, hw1ne, hw1, htne, ht, hw2ne, hw2, hnne, hn, hw3⟩ := h
  obtain ⟨c1, t1, hteq⟩ : ∃ c1 t1, t.toList = c1 :: t1 := by
    cases hx : t.toList
    · exact absurd hx htne
    · exact ⟨_, _, rfl⟩
  obtain ⟨cn, n1, hneq⟩ : ∃ cn n1, n.toList = cn :: n1 := by
    cases hx : n.toList
    · exact absurd hx hnne
    · exact ⟨_, _, rfl⟩
  obtain ⟨cw2, w2t, hw2eq⟩ : ∃ c l, w2 = c :: l := by
    cases hx : w2
    · exact absurd hx hw2ne
    · exact ⟨_, _, rfl⟩
  have hc1 : isTypeChar c1 = true := ht c1 (by rw [hteq]; exact List.mem_cons_self _ _)
  have hcn : isWordChar cn = true := hn cn (by rw [hneq]; exact List.mem_cons_self _ _)
  have hcw2 : isSpaceChar cw2 = true := hw2 cw2 (by rw [hw2eq]; exact List.mem_cons_self _ _)
  rw [searchDecl]
  simp only [List.any_eq_true]
  refine ⟨w0.length, ?_, ?_⟩
  · rw [List.mem_range, hline]
    simp only [List.length_append]
    omega
  · have hdrop : line.toList.drop w0.length
        = v.toList ++ (w1 ++ (t.toList ++ (w2 ++ (n.toList ++ (w3 ++ ';' :: r))))) := by
      rw [hline, List.drop_left]
    rw [hdrop, tryDeclAt, stripPrefixL_append]
    have hTstop : ∀ c, (t.toList ++ (w2 ++ (n.toList ++ (w3 ++ ';' :: r)))).head? = some c →
        isSpaceChar c = false := by
      intro c hc
      rw [hteq, List.cons_append, List.head?_cons] at hc
      cases hc
      exact typeChar_not_spaceChar hc1
    have hNstop : ∀ c, (n.toList ++ (w3 ++ ';' :: r)).head? = some c →
        isSpaceChar c = false := by
      intro c hc
      rw [hneq, List.cons_append, List.head?_cons] at hc
      cases hc
      exact wordChar_not_spaceChar hcn
    have hw1take := takeWhile_run _ _ hw1 hTstop
    have hw1drop := dropWhile_run _ _ hw1 hTstop
    have hw2take := takeWhile_run _ _ hw2 hNstop
    have hw2drop := dropWhile_run _ _ hw2 hNstop
    have hfinal : (w3 ++ ';' :: r).dropWhile isSpaceChar = ';' :: r := by
      refine dropWhile_run _ _ hw3 ?_
      intro c hc
      simp only [List.head?_cons] at hc
      cases hc
      decide
    have hw1E : w1.isEmpty = false := by
      cases hx : w1
      · exact absurd hx hw1ne
      · rfl
    have hw2E : w2.isEmpty = false := by
      rw [hw2eq]; rfl
    simp only [hw1take, hw1drop, hw1E, Bool.false_eq_true, if_false]
    rw [stripPrefixL_append]
    simp only [hw2take, hw2drop, hw2E, Bool.false_eq_true, if_false]
    rw [stripPrefixL_append]
    simp only [hfinal, List.head?_cons]
    rfl

theorem mapMO_isSome {α β : Type _} (f : α → Option β) (l : List α)
    (h : ∀ a ∈ l, (f a).isSome = true) : (mapMO f l).isSome = true := by
  induction l with
  | nil => rfl
  | cons a l ih =>
    simp only [mapMO]
    cases hfa : f a with
    | none =>
      have := h a (List.mem_cons_self _ _)
      rw [hfa] at this
      cases this
    | some b =>
      have hrest := ih (fun x hx => h x (List.mem_cons_of_mem _ hx))
      cases hml : mapMO f l with
      | none => rw [hml] at hrest; cases hrest
      | some bs => simp

theorem firstIdx_isSome_of_mem {α : Type _} (p : α → Bool) (l : List α) (a : α)
    (ha : a ∈ l) (hp : p a = true) : (firstIdx p l).isSome = true := by
  induction l with
  | nil => cases ha
  | cons b l ih =>
    rw [firstIdx]
    by_cases hb : p b = true
    · simp [hb]
    · rcases List.mem_cons.mp ha with rfl | ha2
      · exact absurd hp hb
      · have hrec := ih ha2
        cases hfi : firstIdx p l with
        | none => rw [hfi] at hrec; cases hrec
        | some i => rw [if_neg hb]; rfl

theorem mem_fieldsOf {lines : List String} {v t n : String}
    (hf : (v, t, n) ∈ fieldsOf lines) :
    ∃ line ∈ lines, fieldDeclMatch line = some (v, t, n) := by
  rw [fieldsOf] at hf
  obtain ⟨l, hl, hin⟩ := (mem_flatMapL _ _ _).mp hf
  cases hx : fieldDeclMatch l with
  | none => rw [hx] at hin; simp [Option.toList] at hin
  | some p =>
    rw [hx] at hin
    simp only [Option.toList, List.mem_singleton] at hin
    exact ⟨l, hl, by rw [hx, hin]⟩

theorem processField_isSome (javaPath : String) (lines : List String) (className : String)
    (allJava allHtml : List JFile) (v t n : String)
    (hf : (v, t, n) ∈ fieldsOf lines)
    (hhtml : ∀ h ∈ allHtml, h.content.isSome = true) :
    (processField javaPath lines className allJava allHtml (v, t, n)).isSome = true := by
  obtain ⟨line, hline, hmatch⟩ := mem_fieldsOf hf
  have hsearch : searchDecl v t n line = true := shape_searchDecl (fieldDeclMatch_shape hmatch)
  have hidx : (firstIdx (fun l => searchDecl v t n l) lines).isSome = true :=
    firstIdx_isSome_of_mem _ _ line hline hsearch
  obtain ⟨i, hi⟩ := Option.isSome_iff_exists.mp hidx
  rw [processField]
  simp only
  rw [hi]
  simp only
  split
  · rename_i hbad
    exfalso
    rw [List.any_eq_true] at hbad
    obtain ⟨h2, hmem, hnone⟩ := hbad
    have hs := hhtml h2 hmem
    cases hx : h2.content with
    | none => rw [hx] at hs; cases hs
    | some c => rw [hx] at hnone; cases hnone
  · rfl

theorem extract_isSome (declFile : JFile) (allJava allHtml : List JFile)
    (lines : List String) (hcont : declFile.content = some lines)
    (hhtml : ∀ h ∈ allHtml, h.content.isSome = true) :
    (extract_attributes_from_java declFile allJava allHtml).isSome = true := by
  rw [extract_attributes_from_java, hcont]
  simp only
  apply mapMO_isSome
  intro fld hfld
  obtain ⟨v, t, n⟩ := fld
  exact processField_isSome _ _ _ _ _ _ _ _ hfld hhtml

theorem flatMapL_eq_nil {α β : Type _} (f : α → List β) (l : List α)
    (h : ∀ a ∈ l, f a = []) : flatMapL f l = [] := by
  induction l with
  | nil => rfl
  | cons a l ih =>
    rw [flatMapL, h a (List.mem_cons_self _ _),
      ih (fun x hx => h x (List.mem_cons_of_mem _ hx))]
    rfl

theorem refCompsForFile_eq_nil (fname declPath declSnippet : String) (jf : JFile)
    (h : ∀ ls, jf.content = some ls →
        ∀ li < ls.length, wordMatchPositions fname.toList (ls.getD li "").toList ≠ [] →
          jf.path = declPath ∧ pstrip (ls.getD li "") = declSnippet) :
    refCompsForFile fname declPath declSnippet jf = [] := by
  cases hcont : jf.content with
  | none => rw [refCompsForFile, hcont]
  | some ls =>
    rw [refCompsForFile, hcont]
    simp only
    apply flatMapL_eq_nil
    intro li hli
    apply flatMapL_eq_nil
    intro k hk
    have hpos : wordMatchPositions fname.toList (ls.getD li "").toList ≠ [] := by
      intro he
      rw [he] at hk
      cases hk
    obtain ⟨hpath, hsnip⟩ := h ls hcont li (List.mem_range.mp hli) hpos
    rw [if_pos]
    simp only [Bool.and_eq_true, beq_iff_eq]
    exact ⟨hpath, hsnip⟩

theorem restExtCompsForFile_eq_nil (jf : JFile)
    (h : ∀ ls, jf.content = some ls →
        findallAnnots restAlts (joinLinesC ls) = [] ∧ findallExtCalls (joinLinesC ls) = []) :
    restExtCompsForFile jf = [] := by
  cases hcont : jf.content with
  | none => rw [restExtCompsForFile, hcont]
  | some ls =>
    rw [restExtCompsForFile, hcont]
    simp only
    obtain ⟨h1, h2⟩ := h ls hcont
    rw [h1, h2]
    rfl

/-! ## Claim theorems -/

/-- C10 counterexample: in a file whose first line is a comment embedding the
declaration text, the record's first (declaration) component carries
lineRange 1 — the comment line — although the only line recognized as a field
declaration is line 2, refuting "the declaration's 1-based line number". -/
theorem C10_counterexample :
    (extract_attributes_from_java exCommentDecl [exCommentDecl] []).map
        (fun recs => recs.map (fun r => r.components.head?.map
          (fun c => (c.lineRange, c.snippet, c.usageType))))
      = some [some (1, "// private int x;", "private")]
    ∧ fieldDeclMatch "// private int x;" = none
    ∧ fieldDeclMatch "private int x;" = some ("private", "int", "x") :=
  ⟨rfl, rfl, rfl⟩

/-- C10 (amended): for every field processed, the record's components list is
non-empty and its first entry is the declaration occurrence — the declaring
file's path, the declaring class name, the visibility keyword as usage type —
whose lineRange is the 1-based index of the first line on which the
declaration search pattern occurs (which equals the declaration's own line
whenever no earlier line embeds the declaration text); the
(className, type, filePath) deduplication keeps this entry in first
position. -/
theorem C10_amended (javaPath : String) (lines : List String) (className : String)
    (allJava allHtml : List JFile) (vis ftype fname : String) (r : AttrRecord)
    (h : processField javaPath lines className allJava allHtml (vis, ftype, fname) = some r) :
    ∃ i, firstIdx (fun l => searchDecl vis ftype fname l) lines = some i
      ∧ r.components ≠ []
      ∧ r.components.head? = some
          { ctype := classify_layer javaPath, filePath := javaPath, className := className
          , usageType := vis
          , snippet := pstrip (lines.getD i "")
          , lineRange := i + 1
          , explanation := "Field " ++ fname ++ " of type " ++ ftype ++ " in class "
              ++ className } := by
  rw [processField] at h
  simp only at h
  cases hidx : firstIdx (fun l => searchDecl vis ftype fname l) lines with
  | none => rw [hidx] at h; cases h
  | some i =>
    rw [hidx] at h
    simp only at h
    split at h
    · cases h
    · cases h
      refine ⟨i, rfl, ?_, ?_⟩
      · simp [dedupByKey, dedupByKeyAux, List.cons_append]
      · simp [dedupByKey, dedupByKeyAux, List.cons_append]

/-- Witness for C10 (amended) at the concrete comment-decl project. -/
theorem C10_witness :
    ((processField "p/B.java" ["// private int x;", "private int x;"] "B" [exCommentDecl] []
        ("private", "int", "x")).map (fun r => r.components.head?.map (fun c => c.lineRange)))
      = some (some 1) := by
  cases hp : processField "p/B.java" ["// private int x;", "private int x;"] "B" [exCommentDecl]
      [] ("private", "int", "x") with
  | none => exact absurd hp (by decide)
  | some r =>
    obtain ⟨i, hi, hne, hhead⟩ := C10_amended "p/B.java"
      ["// private int x;", "private int x;"] "B" [exCommentDecl] [] "private" "int" "x" r hp
    have h0 : firstIdx (fun l => searchDecl "private" "int" "x" l)
        ["// private int x;", "private int x;"] = some 0 := rfl
    rw [h0] at hi
    cases hi
    have hval : r.components.head?.map (fun c => c.lineRange) = some 1 := by
      rw [hhead]
      rfl
    show some (r.components.head?.map (fun c => c.lineRange)) = some (some 1)
    rw [hval]

/-- C9 counterexample: a field referenced nowhere outside its own declaration
line, but declared in a file whose path classifies as MODEL, produces a
record with a single component and a NON-empty edge list (the declaration
edge), refuting the claim's unconditional "empty dependencies.edges". -/
theorem C9_counterexample :
    (extract_attributes_from_java exModelFile [exModelFile] []).map
        (fun recs => recs.map (fun r => (r.components.length, r.depEdges)))
      = some [(1, [⟨"User", "flag", "declaration", "MODEL"⟩])] := rfl

/-- C9 (amended): for every field referenced nowhere outside its own
declaration line (every whole-word match of the field anywhere in the project
lies in the declaring file on a line whose stripped text equals the stored
declaration snippet), when the declaring file's path classifies to DEFAULT
and no project file contains REST-endpoint annotations or external HTTP call
patterns, the record's components list has length exactly 1 and its
dependency edge list is empty. -/
theorem C9_amended (javaPath : String) (lines : List String) (className : String)
    (allJava allHtml : List JFile) (vis ftype fname : String) (i : Nat) (r : AttrRecord)
    (hp : processField javaPath lines className allJava allHtml (vis, ftype, fname) = some r)
    (hidx : firstIdx (fun l => searchDecl vis ftype fname l) lines = some i)
    (hlayer : classify_layer javaPath = "DEFAULT")
    (hvis : vis = "private" ∨ vis = "protected" ∨ vis = "public")
    (hnoref : ∀ jf ∈ allJava, ∀ ls, jf.content = some ls →
        ∀ li < ls.length, wordMatchPositions fname.toList (ls.getD li "").toList ≠ [] →
          jf.path = javaPath ∧ pstrip (ls.getD li "") = pstrip (lines.getD i ""))
    (hnorest : ∀ jf ∈ allJava, ∀ ls, jf.content = some ls →
        findallAnnots restAlts (joinLinesC ls) = [] ∧ findallExtCalls (joinLinesC ls) = []) :
    r.components.length = 1 ∧ r.depEdges = [] := by
  have hA : flatMapL (refCompsForFile fname javaPath (pstrip (lines.getD i ""))) allJava
      = [] := by
    apply flatMapL_eq_nil
    intro jf hjf
    exact refCompsForFile_eq_nil _ _ _ _ (hnoref jf hjf)
  have hB : flatMapL restExtCompsForFile allJava = [] := by
    apply flatMapL_eq_nil
    intro jf hjf
    exact restExtCompsForFile_eq_nil _ (hnorest jf hjf)
  rw [processField] at hp
  simp only at hp
  rw [hidx] at hp
  simp only at hp
  split at hp
  · cases hp
  · cases hp
    constructor
    · simp only [hA, hB, List.cons_append, List.append_nil]
      rfl
    · simp only [hA, hB, List.cons_append, List.append_nil, hlayer]
      rcases hvis with rfl | rfl | rfl <;> rfl

/-- Witness for C9 (amended) at a concrete single-file DEFAULT-layer
project. -/
theorem C9_witness :
    ((processField "app/User.java" ["class User \x7b", "private int flag;", "\x7d"] "User"
        [exDefaultFile] [] ("private", "int", "flag")).map
      (fun r => (r.components.length, r.depEdges))) = some (1, []) := by
  cases hp : processField "app/User.java" ["class User \x7b", "private int flag;", "\x7d"] "User"
      [exDefaultFile] [] ("private", "int", "flag") with
  | none => exact absurd hp (by decide)
  | some r =>
    have h9 := C9_amended "app/User.java" ["class User \x7b", "private int flag;", "\x7d"] "User"
      [exDefaultFile] [] "private" "int" "flag" 1 r hp rfl rfl (Or.inl rfl) ?hnoref ?hnorest
    · obtain ⟨h1, h2⟩ := h9
      show some (r.components.length, r.depEdges) = some (1, [])
      rw [h1, h2]
    case hnoref =>
      intro jf hjf ls hls li hli hpos
      rcases List.mem_singleton.mp hjf with rfl
      cases hls
      have hli3 : li < 3 := hli
      interval_cases li <;> revert hpos <;> decide
    case hnorest =>
      intro jf hjf ls hls
      rcases List.mem_singleton.mp hjf with rfl
      cases hls
      exact ⟨rfl, rfl⟩

theorem mem_toList_option {α : Type _} (o : Option α) (a : α) : a ∈ o.toList ↔ o = some a := by
  cases o <;> simp [eq_comm]

theorem fillQuadrant_ne_nil (l : List ImpactEntry) : fillQuadrant l ≠ [] := by
  rw [fillQuadrant]
  cases l <;> simp

theorem length_flatMapL_eq {α β : Type _} (f : α → List β) (l : List α) (k : Nat)
    (h : ∀ a ∈ l, (f a).length = k) : (flatMapL f l).length = l.length * k := by
  induction l with
  | nil => simp [flatMapL]
  | cons a l ih =>
    rw [flatMapL, List.length_append, h a (List.mem_cons_self _ _),
      ih (fun x hx => h x (List.mem_cons_of_mem _ hx)), List.length_cons]
    ring

theorem mem_ascRange {lo hi j : Int} : j ∈ ascRange lo hi ↔ lo ≤ j ∧ j < hi := by
  rw [ascRange, List.mem_map]
  constructor
  · rintro ⟨k, hk, rfl⟩
    rw [List.mem_range] at hk
    omega
  · rintro ⟨h1, h2⟩
    refine ⟨(j - lo).toNat, ?_, ?_⟩
    · rw [List.mem_range]
      omega
    · omega

theorem mem_flatMapL_window (f : String → List String) (lines : List String) (lo hi : Int)
    (s : String) :
    s ∈ flatMapL (fun j => if inBounds lines j then f (lineGetD lines j) else [])
        (ascRange lo hi)
      ↔ ∃ j : Nat, j < lines.length ∧ lo ≤ (j : Int) ∧ (j : Int) < hi
          ∧ s ∈ f (lines.getD j "") := by
  rw [mem_flatMapL]
  constructor
  · rintro ⟨jz, hjz, hs⟩
    rw [mem_ascRange] at hjz
    by_cases hb : inBounds lines jz = true
    · rw [if_pos hb] at hs
      simp only [inBounds, Bool.and_eq_true, decide_eq_true_eq] at hb
      refine ⟨jz.toNat, by omega, by omega, by omega, ?_⟩
      rw [lineGetD, if_pos hb.1] at hs
      exact hs
    · rw [if_neg hb] at hs
      cases hs
  · rintro ⟨j, hj, hlo, hhi, hs⟩
    refine ⟨(j : Int), by rw [mem_ascRange]; exact ⟨hlo, hhi⟩, ?_⟩
    have hb : inBounds lines (j : Int) = true := by
      simp only [inBounds, Bool.and_eq_true, decide_eq_true_eq]
      omega
    rw [if_pos hb, lineGetD, if_pos (by omega : (0 : Int) ≤ (j : Int))]
    rw [Int.toNat_natCast]
    exact hs

/-- C3 (code bug): the `for comment in doc_comments` loop sits inside the
`for comp in components` loop (source lines 333-357), so every collected doc
comment yields one finding PER COMPONENT: with one collected comment and two
components the record carries two identical doc-comment findings, where the
claim requires exactly one per comment.  The general count, when no other
docs/testing rule fires, is |components| * |doc_comments|. -/
theorem C3_doc_findings :
    (docCommentsAt ["class User \x7b", "// the note", "private int flag;", "\x7d"] 3 = [" the note"]
      ∧ (extract_attributes_from_java exDocFile [exDocFile, exHelperFile] []).map
          (fun recs => recs.map (fun r => r.impact.docsTesting))
        = some [[⟨"Doc comment:  the note for flag in User", some "a/User.java", some 3⟩,
                 ⟨"Doc comment:  the note for flag in User", some "a/User.java", some 3⟩]]
      ∧ (extract_attributes_from_java exDocFile [exDocFile, exHelperFile] []).map
          (fun recs => recs.map (fun r => r.components.length))
        = some [2])
    ∧ (∀ (comps : List Component) (fname cls declPath : String) (ln : Nat)
        (docs : List String),
        (∀ c ∈ comps, strContains (toLowerStr c.className) "test" = false
          ∧ strContains (toLowerStr c.snippet) "@org.junit.test" = false
          ∧ strContains (toLowerStr c.snippet) "assert" = false
          ∧ strContains (toLowerStr c.snippet) "doc" = false
          ∧ strContains (toLowerStr c.snippet) "javadoc" = false) →
        (rawImpact comps fname cls declPath ln docs).docsTesting.length
          = comps.length * docs.length) := by
  refine ⟨⟨rfl, rfl, rfl⟩, ?_⟩
  intro comps fname cls declPath ln docs hcond
  rw [rawImpact]
  apply length_flatMapL_eq
  intro c hc
  obtain ⟨h1, h2, h3, h4, h5⟩ := hcond c hc
  rw [docImpactFor, h1, h2, h3, h4, h5]
  simp

/-- Witness for the general count of C3 at a concrete two-component,
one-comment input. -/
theorem C3_witness :
    ((∀ c ∈ [exDupA, exDupB], strContains (toLowerStr c.className) "test" = false
        ∧ strContains (toLowerStr c.snippet) "@org.junit.test" = false
        ∧ strContains (toLowerStr c.snippet) "assert" = false
        ∧ strContains (toLowerStr c.snippet) "doc" = false
        ∧ strContains (toLowerStr c.snippet) "javadoc" = false))
    ∧ (rawImpact [exDupA, exDupB] "flag" "User" "a/User.java" 3 [" the note"]).docsTesting.length
        = 2 :=
  ⟨by decide,
    C3_doc_findings.2 [exDupA, exDupB] "flag" "User" "a/User.java" 3 [" the note"] (by decide)⟩

/-- C2 counterexample: a field with zero occurrences beyond its declaration
in a DEFAULT-layer file but with a collected doc comment gets a doc-comment
finding in docsTesting instead of the placeholder, refuting "all four
quadrants contain exactly that placeholder". -/
theorem C2_counterexample :
    (extract_attributes_from_java exDocFile [exDocFile] []).map
        (fun recs => recs.map (fun r =>
          (r.components.length, classify_layer "a/User.java", r.impact.application,
           r.impact.database, r.impact.integration, r.impact.docsTesting)))
      = some [(1, "DEFAULT", [placeholderEntry], [placeholderEntry], [placeholderEntry],
          [⟨"Doc comment:  the note for flag in User", some "a/User.java", some 3⟩])]
    ∧ (⟨"Doc comment:  the note for flag in User", some "a/User.java", some 3⟩ : ImpactEntry)
        ≠ placeholderEntry :=
  ⟨rfl, by decide⟩

/-- C2 (amended): after classification every quadrant is non-empty; a
quadrant the rules left empty contains exactly the single placeholder entry
and a quadrant with findings is left unchanged; and for a field whose only
occurrence is its DEFAULT-layer declaration all four quadrants are exactly
the placeholder provided additionally that no documentation comments were
collected, the snippet contains none of the database/docs keywords, and the
class name does not contain "test". -/
theorem C2_amended :
    (∀ (comps : List Component) (fname cls declPath : String) (ln : Nat)
        (docs : List String),
        (impactOf comps fname cls declPath ln docs).application ≠ []
        ∧ (impactOf comps fname cls declPath ln docs).database ≠ []
        ∧ (impactOf comps fname cls declPath ln docs).integration ≠ []
        ∧ (impactOf comps fname cls declPath ln docs).docsTesting ≠ [])
    ∧ (∀ l : List ImpactEntry,
        (l = [] → fillQuadrant l = [placeholderEntry]) ∧ (l ≠ [] → fillQuadrant l = l))
    ∧ (∀ (c : Component) (fname cls declPath : String) (ln : Nat),
        c.ctype = "DEFAULT" →
        (c.usageType = "private" ∨ c.usageType = "protected" ∨ c.usageType = "public") →
        (∀ kw ∈ ["sql", "select", "insert", "update", "delete", "where", "from", "@column",
            "@org.junit.test", "assert", "doc", "javadoc"],
          strContains (toLowerStr c.snippet) kw = false) →
        strContains (toLowerStr c.className) "test" = false →
        impactOf [c] fname cls declPath ln []
          = ⟨[placeholderEntry], [placeholderEntry], [placeholderEntry], [placeholderEntry]⟩) := by
  refine ⟨?_, ?_, ?_⟩
  · intro comps fname cls declPath ln docs
    exact ⟨fillQuadrant_ne_nil _, fillQuadrant_ne_nil _, fillQuadrant_ne_nil _,
      fillQuadrant_ne_nil _⟩
  · intro l
    constructor
    · intro hl
      rw [hl, fillQuadrant]
      rfl
    · intro hl
      rw [fillQuadrant, if_neg]
      simp [hl]
  · intro c fname cls declPath ln hct husage hkw htest
    have hk1 := hkw "sql" (by decide)
    have hk2 := hkw "select" (by decide)
    have hk3 := hkw "insert" (by decide)
    have hk4 := hkw "update" (by decide)
    have hk5 := hkw "delete" (by decide)
    have hk6 := hkw "where" (by decide)
    have hk7 := hkw "from" (by decide)
    have hk8 := hkw "@column" (by decide)
    have hk9 := hkw "@org.junit.test" (by decide)
    have hk10 := hkw "assert" (by decide)
    have hk11 := hkw "doc" (by decide)
    have hk12 := hkw "javadoc" (by decide)
    rcases husage with h | h | h <;>
      simp [impactOf, rawImpact, fillQuadrant, flatMapL, appImpactFor, dbImpactFor,
        intImpactFor, docImpactFor, hct, h, htest, hk1, hk2, hk3, hk4, hk5, hk6, hk7, hk8,
        hk9, hk10, hk11, hk12]

/-- Witness for C2 (amended) at a concrete DEFAULT-layer declaration
component. -/
theorem C2_witness :
    ((exDeclComp.ctype = "DEFAULT")
      ∧ (exDeclComp.usageType = "private" ∨ exDeclComp.usageType = "protected"
          ∨ exDeclComp.usageType = "public"))
    ∧ impactOf [exDeclComp] "flag" "User" "app/User.java" 2 []
        = ⟨[placeholderEntry], [placeholderEntry], [placeholderEntry], [placeholderEntry]⟩ :=
  ⟨⟨rfl, Or.inl rfl⟩,
    C2_amended.2.2 exDeclComp "flag" "User" "app/User.java" 2 rfl (Or.inl rfl) (by decide) rfl⟩

/-- C5 counterexample: an `@Column(name="FAR")` exactly 6 lines above the
declaration (line index 0; the declaration search hits index 6, so
`line_num = 7`) is OUTSIDE the scanned window `range(line_num-6, line_num+2)`
— which covers only 5 lines above — so the alias set stays empty although the
claim's window "from 6 lines above" contains the annotation. -/
theorem C5_counterexample :
    aliasesOf "email" 7 exC5Lines = []
    ∧ colNameSearch "@Column" (exC5Lines.getD 0 "") = some "FAR"
    ∧ firstIdx (fun l => searchDecl "private" "String" "email" l) exC5Lines = some 6 :=
  ⟨rfl, rfl, rfl⟩

/-- C5 (amended): a string is an alias exactly when it comes from an
`@Column`/`@Table` name argument or an alias comment on a line from 5 lines
above to 2 lines below the declaration (indices `line_num-6 ≤ j < line_num+2`
of the source), or from a `fieldName = X` / `fieldName : X` pattern on a line
from 9 above to 10 below (indices `line_num-10 ≤ j < line_num+10`) with X
different from the field's own name; in particular a `@Column(name=
"USER_EMAIL")` inside the window puts "USER_EMAIL" in the alias set, and with
no matching source the result is the empty set. -/
theorem C5_amended :
    (∀ (fname : String) (lineNum : Nat) (lines : List String) (s : String),
        s ∈ aliasesOf fname lineNum lines ↔
          ((∃ j : Nat, j < lines.length ∧ lineNum ≤ j + 6 ∧ j < lineNum + 2 ∧
              (colNameSearch "@Column" (lines.getD j "") = some s
                ∨ colNameSearch "@Table" (lines.getD j "") = some s
                ∨ aliasCommentSearch (lines.getD j "") = some s))
            ∨ (∃ j : Nat, j < lines.length ∧ lineNum ≤ j + 10 ∧ j < lineNum + 10 ∧
                s ∈ findallAltNames fname (lines.getD j "") ∧ s ≠ fname)))
    ∧ (∀ (fname : String) (lineNum : Nat) (lines : List String) (j : Nat),
        j < lines.length → lineNum ≤ j + 6 → j < lineNum + 2 →
        colNameSearch "@Column" (lines.getD j "") = some "USER_EMAIL" →
        "USER_EMAIL" ∈ aliasesOf fname lineNum lines) := by
  have hmain : ∀ (fname : String) (lineNum : Nat) (lines : List String) (s : String),
      s ∈ aliasesOf fname lineNum lines ↔
        ((∃ j : Nat, j < lines.length ∧ lineNum ≤ j + 6 ∧ j < lineNum + 2 ∧
            (colNameSearch "@Column" (lines.getD j "") = some s
              ∨ colNameSearch "@Table" (lines.getD j "") = some s
              ∨ aliasCommentSearch (lines.getD j "") = some s))
          ∨ (∃ j : Nat, j < lines.length ∧ lineNum ≤ j + 10 ∧ j < lineNum + 10 ∧
              s ∈ findallAltNames fname (lines.getD j "") ∧ s ≠ fname)) := by
    intro fname lineNum lines s
    rw [aliasesOf, mem_dedupByKey_id, aliasCandidates]
    simp only [List.mem_append]
    rw [mem_flatMapL_window (fun l => (colNameSearch "@Column" l).toList
        ++ (colNameSearch "@Table" l).toList) lines,
      mem_flatMapL_window (fun l => (aliasCommentSearch l).toList) lines,
      mem_flatMapL_window (fun l => (findallAltNames fname l).filter (fun alt => alt != fname))
        lines]
    constructor
    · rintro ((⟨j, h1, h2, h3, hs⟩ | ⟨j, h1, h2, h3, hs⟩) | ⟨j, h1, h2, h3, hs⟩)
      · rcases List.mem_append.mp hs with h | h
        · exact Or.inl ⟨j, h1, by omega, by omega,
            Or.inl ((mem_toList_option _ _).mp h)⟩
        · exact Or.inl ⟨j, h1, by omega, by omega,
            Or.inr (Or.inl ((mem_toList_option _ _).mp h))⟩
      · exact Or.inl ⟨j, h1, by omega, by omega,
          Or.inr (Or.inr ((mem_toList_option _ _).mp hs))⟩
      · rw [List.mem_filter] at hs
        refine Or.inr ⟨j, h1, by omega, by omega, hs.1, ?_⟩
        have := hs.2
        simp only [bne_iff_ne, ne_eq] at this
        exact this
    · rintro (⟨j, h1, h2, h3, hs⟩ | ⟨j, h1, h2, h3, hs, hne⟩)
      · rcases hs with h | h | h
        · exact Or.inl (Or.inl ⟨j, h1, by omega, by omega,
            List.mem_append.mpr (Or.inl ((mem_toList_option _ _).mpr h))⟩)
        · exact Or.inl (Or.inl ⟨j, h1, by omega, by omega,
            List.mem_append.mpr (Or.inr ((mem_toList_option _ _).mpr h))⟩)
        · exact Or.inl (Or.inr ⟨j, h1, by omega, by omega,
            (mem_toList_option _ _).mpr h⟩)
      · refine Or.inr ⟨j, h1, by omega, by omega, ?_⟩
        rw [List.mem_filter]
        exact ⟨hs, by simp [bne_iff_ne, hne]⟩
  refine ⟨hmain, ?_⟩
  intro fname lineNum lines j hj h6 h2 hcol
  rw [hmain]
  exact Or.inl ⟨j, hj, h6, h2, Or.inl hcol⟩

/-- Witness for C5 (amended): the `@Column(name="USER_EMAIL")` instance. -/
theorem C5_witness :
    (0 < exC5PosLines.length ∧ 2 ≤ 0 + 6 ∧ 0 < 2 + 2
      ∧ colNameSearch "@Column" (exC5PosLines.getD 0 "") = some "USER_EMAIL")
    ∧ "USER_EMAIL" ∈ aliasesOf "email" 2 exC5PosLines :=
  ⟨⟨by decide, by decide, by decide, rfl⟩,
    C5_amended.2 "email" 2 exC5PosLines 0 (by decide) (by decide) (by decide) rfl⟩

/-- C4 counterexample: a line with trailing content after the semicolon IS
recognized by the field matcher (the regex anchors only at the start of the
line), contrary to the claim's "with nothing else on the line ... a line with
trailing content after the semicolon is not recognized". -/
theorem C4_counterexample :
    fieldDeclMatch "private String email; // trailing" = some ("private", "String", "email")
    ∧ fieldsOf ["private String email; // trailing"] = [("private", "String", "email")] :=
  ⟨rfl, rfl⟩

/-- C4 (amended): a source line is recognized as a field declaration exactly
when, after leading whitespace, it begins with a visibility keyword,
whitespace, a type token of word/angle-bracket characters, whitespace, a
word-character identifier and then a semicolon after optional whitespace,
with arbitrary trailing content allowed after the semicolon; the matcher
returns exactly that visibility, type and name, and each recognized line
yields exactly one field tuple. -/
theorem C4_amended :
    (∀ line v t n : String, fieldDeclMatch line = some (v, t, n) ↔ DeclShape line v t n)
    ∧ (∀ lines : List String,
        (fieldsOf lines).length = lines.countP (fun l => (fieldDeclMatch l).isSome)) := by
  constructor
  · intro line v t n
    exact ⟨fieldDeclMatch_shape, shape_fieldDeclMatch⟩
  · intro lines
    induction lines with
    | nil => rfl
    | cons l ls ih =>
      have hcons : fieldsOf (l :: ls) = (fieldDeclMatch l).toList ++ fieldsOf ls := rfl
      rw [hcons, List.length_append, List.countP_cons, ih]
      cases hl : fieldDeclMatch l with
      | none => simp
      | some p => simp [Nat.add_comm]

/-- C1 counterexample: one unreadable HTML file aborts the run even though
the declaring Java file is readable and yields a field, contrary to the
claim that no single unreadable file (Java or HTML) aborts the run. -/
theorem C1_counterexample :
    (scanJavaProjectRun [exDefaultFile] [exDefaultFile] [exBadHtml]).2 = true
    ∧ exBadHtml.content = none
    ∧ exDefaultFile.content.isSome = true := ⟨rfl, rfl, rfl⟩

/-- C1 (amended): an unreadable Java file encountered during the reference
scan or the REST/external-call scan is silently skipped (it contributes no
occurrence) and scanning continues; a run whose declaring Java files and
HTML files are all readable never aborts, whatever the readability of the
reference-scanned Java files.  An unreadable HTML file or an unreadable
declaring file, however, aborts the run (see the counterexample). -/
theorem C1_amended :
    (∀ (fname declPath declSnippet : String) (jf : JFile), jf.content = none →
        refCompsForFile fname declPath declSnippet jf = [] ∧ restExtCompsForFile jf = [])
    ∧ (∀ (declFiles allJava allHtml : List JFile),
        (∀ f ∈ declFiles, f.content.isSome = true) →
        (∀ h ∈ allHtml, h.content.isSome = true) →
        (scanJavaProjectRun declFiles allJava allHtml).2 = false) := by
  constructor
  · intro fname declPath declSnippet jf hnone
    obtain ⟨p, c⟩ := jf
    cases hnone
    exact ⟨rfl, rfl⟩
  · intro declFiles allJava allHtml hdecl hhtml
    induction declFiles with
    | nil => rfl
    | cons f fs ih =>
      have hf := hdecl f (List.mem_cons_self _ _)
      obtain ⟨lines, hlines⟩ : ∃ ls, f.content = some ls := by
        cases hx : f.content
        · rw [hx] at hf; cases hf
        · exact ⟨_, rfl⟩
      have hex := extract_isSome f allJava allHtml lines hlines hhtml
      cases hext : extract_attributes_from_java f allJava allHtml with
      | none => rw [hext] at hex; cases hex
      | some recs =>
        rw [scanJavaProjectRun, hext]
        simp only
        exact ih (fun g hg => hdecl g (List.mem_cons_of_mem _ hg))

/-- Witness for C1 (amended) on a concrete project: an unreadable Java file
among the reference-scan files contributes nothing and the run completes. -/
theorem C1_witness :
    ((∀ f ∈ [exDefaultFile], f.content.isSome = true)
      ∧ (∀ h ∈ ([] : List JFile), h.content.isSome = true))
    ∧ (refCompsForFile "flag" "app/User.java" "private int flag;" exBadJava = []
        ∧ restExtCompsForFile exBadJava = [])
    ∧ (scanJavaProjectRun [exDefaultFile] [exDefaultFile, exBadJava] []).2 = false := by
  refine ⟨⟨?_, ?_⟩,
    C1_amended.1 "flag" "app/User.java" "private int flag;" exBadJava rfl,
    C1_amended.2 [exDefaultFile] [exDefaultFile, exBadJava] [] ?_ ?_⟩
  · intro f hf
    rcases List.mem_singleton.mp hf with rfl
    rfl
  · intro h hh
    cases hh
  · intro f hf
    rcases List.mem_singleton.mp hf with rfl
    rfl
  · intro h hh
    cases hh

/-- C6: the Reference Scanner only emits REFERENCE occurrences, and never one
for the declaring file whose trimmed line text (the occurrence snippet)
exactly equals the declaration snippet — the declaration is never counted as
its own reference. -/
theorem C6_no_self_reference (fname declPath declSnippet : String) (files : List JFile)
    (c : Component) (hc : c ∈ flatMapL (refCompsForFile fname declPath declSnippet) files)
    (hp : c.filePath = declPath) :
    c.usageType = "REFERENCE" ∧ c.snippet ≠ declSnippet := by
  obtain ⟨jf, _, hcj⟩ := (mem_flatMapL _ _ _).mp hc
  obtain ⟨husage, hpath, himp⟩ := refCompsForFile_shape _ _ _ _ _ hcj
  rw [hpath] at hp
  exact ⟨husage, himp hp⟩

/-- Witness for C6 at a concrete two-line project. -/
theorem C6_witness :
    (exRefComp ∈ flatMapL (refCompsForFile "x" "p/F.java" "private int x;") [exSelfRefFile]
      ∧ exRefComp.filePath = "p/F.java")
    ∧ (exRefComp.usageType = "REFERENCE" ∧ exRefComp.snippet ≠ "private int x;") :=
  ⟨⟨by decide, rfl⟩,
    C6_no_self_reference "x" "p/F.java" "private int x;" [exSelfRefFile] exRefComp
      (by decide) rfl⟩

/-- C7: every dependency edge goes from an occurrence's class name to the
field name tagged with that occurrence's layer; edges are deduplicated by the
full (from, to, type, layer) 4-tuple, so re-applying the deduplication leaves
the edge list (hence its length) unchanged, and no two stored edges share the
4-tuple. -/
theorem C7_edge_dedup :
    (∀ (fname : String) (comps : List Component) (e : Edge),
        e ∈ buildEdges fname comps →
          ∃ c ∈ comps, e.efrom = c.className ∧ e.eto = fname ∧ e.layer = c.ctype)
    ∧ (∀ l : List Edge, dedupByKey edgeKey (dedupByKey edgeKey l) = dedupByKey edgeKey l)
    ∧ (∀ l : List Edge, (dedupByKey edgeKey l).Pairwise (fun a b => edgeKey a ≠ edgeKey b)) := by
  refine ⟨?_, ?_, ?_⟩
  · intro fname comps e he
    obtain ⟨c, hcm, hce⟩ := (mem_flatMapL _ _ _).mp he
    exact ⟨c, hcm, edgesFor_shape fname c e hce⟩
  · intro l
    exact dedupByKeyAux_idem _ _ _
  · intro l
    exact dedupByKeyAux_pairwise _ _ _

/-- Witness for C7 at a concrete repository-layer occurrence. -/
theorem C7_witness :
    ((⟨"R", "email", "queries", "REPOSITORY"⟩ : Edge) ∈ buildEdges "email" [exRepoComp])
    ∧ ∃ c ∈ [exRepoComp],
        (⟨"R", "email", "queries", "REPOSITORY"⟩ : Edge).efrom = c.className
        ∧ (⟨"R", "email", "queries", "REPOSITORY"⟩ : Edge).eto = "email"
        ∧ (⟨"R", "email", "queries", "REPOSITORY"⟩ : Edge).layer = c.ctype :=
  ⟨by decide, C7_edge_dedup.1 "email" [exRepoComp] _ (by decide)⟩

/-- C8: in every assembled AttributeRecord no two component entries share the
(class name, layer/type, file path) key, and whenever some occurrence with key
k exists in the raw occurrence list, the deduplicated list contains exactly
one entry with key k. -/
theorem C8_component_dedup :
    (∀ (declFile : JFile) (allJava allHtml : List JFile) (recs : List AttrRecord)
        (r : AttrRecord),
        extract_attributes_from_java declFile allJava allHtml = some recs → r ∈ recs →
          r.components.Pairwise (fun a b => compKey a ≠ compKey b))
    ∧ (∀ (comps : List Component) (k : String × String × String),
        (∃ c ∈ comps, compKey c = k) →
          (dedupByKey compKey comps).countP (fun c => decide (compKey c = k)) = 1) := by
  constructor
  · intro declFile allJava allHtml recs r hex hr
    cases hcont : declFile.content with
    | none => rw [extract_attributes_from_java, hcont] at hex; cases hex
    | some lines =>
      rw [extract_attributes_from_java, hcont] at hex
      simp only at hex
      obtain ⟨fld, _, hpf⟩ := mapMO_mem _ _ _ hex r hr
      obtain ⟨comps, hcomps⟩ := processField_components _ _ _ _ _ _ _ hpf
      rw [hcomps]
      exact dedupByKeyAux_pairwise _ _ _
  · intro comps k hk
    rw [dedupByKey, dedupByKeyAux_countP]
    obtain ⟨c, hc, hck⟩ := hk
    have hm : k ∈ comps.map compKey := List.mem_map.mpr ⟨c, hc, hck⟩
    simp [hm]

/-- Witness for C8: two distinct textual matches in the same file and class
collapse to exactly one entry for their shared key. -/
theorem C8_witness :
    (∃ c ∈ [exDupA, exDupB], compKey c = ("C", "DEFAULT", "f.java"))
    ∧ (dedupByKey compKey [exDupA, exDupB]).countP
        (fun c => decide (compKey c = ("C", "DEFAULT", "f.java"))) = 1 :=
  ⟨⟨exDupA, List.mem_cons_self _ _, rfl⟩,
    C8_component_dedup.2 [exDupA, exDupB] _ ⟨exDupA, List.mem_cons_self _ _, rfl⟩⟩

end KYC
